import Mathlib

/-! # rdkafka-cachesender: segmentation and send loop

A shallow embedding of `main` of `rdkafka-cachesender.c`:

* the option checks (lines 156-183) and the load loop (lines 188-220);
* the segmentation loop (lines 226-261), which scans the loaded buffer and
  builds the table of line-end offsets, rewriting the chosen spaces to `'\n'`;
* the send loop (lines 305-377), as a step function over the program state,
  driven by what the environment supplies at each step (the value of the
  volatile `run` flag, the result of `rd_kafka_produce`, the clock).

C `int` values are modelled by `Nat` (segmentation: every value is an offset
into the buffer, between `0` and `file_size`) and by `Int` (send loop, where
`offset_table_size - lines_to_send` may be negative).  Signed overflow is
undefined in C and is outside the model: `file_size` and
`offset_table_size + lines_to_send` are taken to fit an `int`.
-/

namespace CacheSender

/-! ## Segmentation (lines 226-261) -/

/-- The one way segmentation ends the process:
`errexit("Line too long, try increasing line length")`. -/
inductive SegError where
  | line_too_long
  deriving DecidableEq, Repr

/-- The variables of the segmentation loop.  `memory` is the loaded buffer,
one `Char` per byte. -/
structure SegState where
  memory : List Char
  offset_table : List Nat
  curr_line : Nat
  line_mem_size : Nat
  last_space_offset : Nat
  last_line_offset : Nat
  deriving DecidableEq, Repr

/-- The constant `DEFAULT_CHUNK_SIZE`: bytes added at each growth. -/
def DEFAULT_CHUNK_SIZE : Nat := 16

/-- The size `sizeof(int)` of a table entry, in bytes. -/
def sizeof_int : Nat := 4

/-- The assignment `offset_table[k] = v` on a heap array whose slots beyond
the ones written so far hold no meaningful value (shown as `0`). -/
def store (t : List Nat) (k v : Nat) : List Nat :=
  (t ++ List.replicate (k + 1 - t.length) 0).set k v

/-- The state before the first iteration (lines 226-230). -/
def segInit (memory : List Char) : SegState :=
  { memory := memory
    offset_table := []
    curr_line := 0
    line_mem_size := DEFAULT_CHUNK_SIZE
    last_space_offset := 0
    last_line_offset := 0 }

/-- Lines 234-251: the body of `if(lines_sent - last_line_offset >= line_length)`.
The truncated subtraction of `Nat` agrees with the `int` subtraction in the
test, since `line_length >= 1`. -/
def breakLine (line_length lines_sent : Nat) (s : SegState) : Except SegError SegState :=
  if lines_sent - s.last_line_offset ≥ line_length then
    if s.last_space_offset = s.last_line_offset then
      .error .line_too_long
    else
      let offset_table := store s.offset_table s.curr_line (s.last_space_offset + 1)
      let memory := s.memory.set s.last_space_offset '\n'
      let curr_line := s.curr_line + 1
      let line_mem_size :=
        if curr_line * sizeof_int ≥ s.line_mem_size then s.line_mem_size + DEFAULT_CHUNK_SIZE
        else s.line_mem_size
      let last_space_offset := s.last_space_offset + 1
      .ok { memory := memory
            offset_table := offset_table
            curr_line := curr_line
            line_mem_size := line_mem_size
            last_space_offset := last_space_offset
            last_line_offset := last_space_offset }
  else
    .ok s

/-- The state a line break leaves (lines 239-250). -/
def broken (s : SegState) : SegState :=
  { memory := s.memory.set s.last_space_offset '\n'
    offset_table := store s.offset_table s.curr_line (s.last_space_offset + 1)
    curr_line := s.curr_line + 1
    line_mem_size :=
      if (s.curr_line + 1) * sizeof_int ≥ s.line_mem_size then
        s.line_mem_size + DEFAULT_CHUNK_SIZE
      else s.line_mem_size
    last_space_offset := s.last_space_offset + 1
    last_line_offset := s.last_space_offset + 1 }

/-- Lines 252-253: `if(memory[lines_sent] == ' ') last_space_offset = lines_sent;`. -/
def noteSpace (lines_sent : Nat) (s : SegState) : SegState :=
  if s.memory[lines_sent]? = some ' ' then { s with last_space_offset := lines_sent } else s

/-- One iteration of the `for` loop of line 232, at scan position `lines_sent`. -/
def segBody (line_length lines_sent : Nat) (s : SegState) : Except SegError SegState :=
  match breakLine line_length lines_sent s with
  | .error e => .error e
  | .ok s1 => .ok (noteSpace lines_sent s1)

/-- The state after the first `n` iterations of the `for` loop of line 232
(`lines_sent = 0, 1, ..., n - 1`), or the error that ended the process. -/
def scan (line_length : Nat) (memory : List Char) : Nat → Except SegError SegState
  | 0 => .ok (segInit memory)
  | n + 1 =>
    match scan line_length memory n with
    | .error e => .error e
    | .ok s => segBody line_length n s

/-- What segmentation hands to the send loop. -/
structure Segmented where
  memory : List Char
  offset_table : List Nat
  offset_table_size : Nat
  deriving DecidableEq, Repr

/-- Lines 255-261: the entry of the trailing line and `offset_table_size`. -/
def closeTable (file_size : Nat) (s : SegState) : Segmented :=
  if s.last_line_offset < file_size then
    { memory := s.memory
      offset_table := store s.offset_table s.curr_line file_size
      offset_table_size := s.curr_line + 1 }
  else
    { memory := s.memory
      offset_table := s.offset_table
      offset_table_size := s.curr_line }

/-- Segmentation, lines 226-261: the loop runs `file_size` iterations (the
buffer length), then the trailing line is closed. -/
def segment (line_length : Nat) (memory : List Char) : Except SegError Segmented :=
  match scan line_length memory memory.length with
  | .error e => .error e
  | .ok s => .ok (closeTable memory.length s)

/-- Start offset of line `k` of a table: `0` for the first line, the previous
entry otherwise (`offset_table[-1]` read as `0`). -/
def lineStart (t : List Nat) (k : Nat) : Nat :=
  if k = 0 then 0 else t.getD (k - 1) 0

/-- The entry `e` closes a line that starts at `st` by the greedy rule: the
line ends just after the last space of the original buffer `mem` at an index
strictly between `st` and `st + L`. -/
def GreedyBreak (L : Nat) (mem : List Char) (st e : Nat) : Prop :=
  st + 1 < e ∧ e ≤ st + L ∧ mem[e - 1]? = some ' ' ∧
    ∀ j, e ≤ j → j < st + L → mem[j]? ≠ some ' '

/-- Loop invariant of the scan of the original buffer `mem`: `n` bounds the
distance to the line start, `m` is the number of bytes already examined for
a space.  After `n` whole iterations both are `n`. -/
structure Inv (L : Nat) (mem : List Char) (n m : Nat) (s : SegState) : Prop where
  mem_len : s.memory.length = mem.length
  cur : s.curr_line = s.offset_table.length
  line_le_space : s.last_line_offset ≤ s.last_space_offset
  space_le : s.last_space_offset ≤ n - 1
  within : n ≤ s.last_line_offset + L
  tail_eq : ∀ j, s.last_line_offset ≤ j → s.memory[j]? = mem[j]?
  space_at : s.last_line_offset < s.last_space_offset →
    mem[s.last_space_offset]? = some ' '
  no_space_after : ∀ j, s.last_space_offset < j → j < m → mem[j]? ≠ some ' '
  start_eq : lineStart s.offset_table s.offset_table.length = s.last_line_offset
  after_space : s.last_line_offset = 0 ∨ mem[s.last_line_offset - 1]? = some ' '
  entries_le : ∀ k, k < s.offset_table.length → s.offset_table.getD k 0 ≤ s.last_line_offset
  breaks : ∀ k, k < s.offset_table.length →
    GreedyBreak L mem (lineStart s.offset_table k) (s.offset_table.getD k 0)
  marks : ∀ k, k < s.offset_table.length →
    s.memory[s.offset_table.getD k 0 - 1]? = some '\n'

/-- The frame of the scan: a byte whose index is not `e - 1` for an entry
`e` written so far is as in the original buffer `mem`. -/
def Frame (mem : List Char) (s : SegState) : Prop :=
  ∀ j, (∀ k, k < s.offset_table.length → j + 1 ≠ s.offset_table.getD k 0) →
    s.memory[j]? = mem[j]?

/-! ## Send loop (lines 300-377)

The loop is a step function.  A step is one evaluation of the head of the
`while` of line 307, or one pass through the `for` of line 312 (its test, its
body and its increment).  Each step takes from the environment what the code
reads from outside at that point.  Logging, the delivery poll and the
throughput arithmetic are left out; the throughput test of line 354 is the
environment's `window_elapsed`. -/

/-- What is fixed when the send loop starts. -/
structure Config where
  offset_table : List Int
  lines_to_send : Int
  sleep_time : Int
  is_msgs_limited : Bool
  msgs_to_send : Nat
  deriving DecidableEq, Repr

/-- The variable `offset_table_size`: the number of table entries. -/
def Config.offset_table_size (c : Config) : Int := c.offset_table.length

/-- What the environment supplies to one step: the value of the volatile
`run` flag when it is read, whether `rd_kafka_produce` succeeded, whether the
elapsed time is within tolerance of one second (line 354), and the value
found by a read past the end of the table. -/
structure Env where
  run : Bool
  produce_ok : Bool
  window_elapsed : Bool
  junk : Int
  deriving DecidableEq, Repr

/-- Where control is between steps. -/
inductive Loc where
  | outer_head
  | inner_head
  | finished
  deriving DecidableEq, Repr

/-- The variables of the send loop, and a record of what it did: the payload
(offset into `memory`, `bytes_to_send`) of each call of `rd_kafka_produce`,
the indices at which `offset_table` was read, the number of `usleep` calls. -/
structure State where
  loc : Loc
  line_offset : Int
  lines_sent : Int
  total_bytes_sent : Int
  total_msgs_sent : Nat
  send_more_msgs : Bool
  produced : List (Int × Int)
  table_reads : List Int
  sleeps : Nat
  deriving DecidableEq, Repr

/-- The state at line 305, before the first test of the `while`. -/
def sendInit : State :=
  { loc := .outer_head
    line_offset := 0
    lines_sent := 0
    total_bytes_sent := 0
    total_msgs_sent := 0
    send_more_msgs := true
    produced := []
    table_reads := []
    sleeps := 0 }

/-- The value of `offset_table[i]`: the entry when `i` is inside the table,
what the environment supplies otherwise. -/
def readTable (t : List Int) (junk : Int) (i : Int) : Int :=
  if 0 ≤ i ∧ i < t.length then t.getD i.toNat 0 else junk

/-- Lines 307-312: the test of the `while`, and the entry into the `for`. -/
def outerHead (e : Env) (s : State) : State :=
  if e.run && s.send_more_msgs then
    { s with loc := .inner_head, line_offset := 0, lines_sent := 0 }
  else
    { s with loc := .finished }

/-- Lines 320-323: the index one past the batch's last line. -/
def batchIndex (c : Config) (lines_sent : Int) : Int :=
  if lines_sent > c.offset_table_size - c.lines_to_send then c.offset_table_size
  else lines_sent + c.lines_to_send

/-- Lines 312-376: one pass through the `for`. -/
def iteration (c : Config) (e : Env) (s : State) : State :=
  if s.lines_sent < c.offset_table_size then
    if e.run = false then
      { s with loc := .outer_head }
    else
      let index := batchIndex c s.lines_sent
      let bytes_to_send := readTable c.offset_table e.junk (index - 1) - s.line_offset
      let produced := s.produced ++ [(s.line_offset, bytes_to_send)]
      let table_reads := s.table_reads ++ [index - 1]
      if e.produce_ok = false then
        { s with
          produced := produced
          table_reads := table_reads
          total_bytes_sent := s.total_bytes_sent - bytes_to_send
          lines_sent := s.lines_sent + c.lines_to_send }
      else
        let total_bytes_sent := s.total_bytes_sent + bytes_to_send
        let total_msgs_sent := (s.total_msgs_sent + 1) % 2 ^ 64
        let sleeps := if c.sleep_time > 0 then s.sleeps + 1 else s.sleeps
        let total_bytes_sent := if e.window_elapsed then 0 else total_bytes_sent
        let line_offset :=
          readTable c.offset_table e.junk (s.lines_sent + c.lines_to_send - 1)
        let table_reads := table_reads ++ [s.lines_sent + c.lines_to_send - 1]
        if c.is_msgs_limited && total_msgs_sent == c.msgs_to_send then
          { s with
            produced := produced
            table_reads := table_reads
            total_bytes_sent := total_bytes_sent
            total_msgs_sent := total_msgs_sent
            sleeps := sleeps
            line_offset := line_offset
            send_more_msgs := false
            loc := .outer_head }
        else
          { s with
            produced := produced
            table_reads := table_reads
            total_bytes_sent := total_bytes_sent
            total_msgs_sent := total_msgs_sent
            sleeps := sleeps
            line_offset := line_offset
            lines_sent := s.lines_sent + c.lines_to_send }
  else
    { s with loc := .outer_head }

/-- One step of the send loop. -/
def step (c : Config) (e : Env) (s : State) : State :=
  match s.loc with
  | .outer_head => outerHead e s
  | .inner_head => iteration c e s
  | .finished => s

/-- The state after the steps fed by `envs`, in order. -/
def runSteps (c : Config) (envs : List Env) (s : State) : State :=
  envs.foldl (fun s e => step c e s) s

/-- Start offset of the batch that begins at line `s`, in the spec's words:
`0` for the first batch, the end of line `s - 1` otherwise. -/
def batchStart (t : List Int) (s : Int) : Int :=
  if s = 0 then 0 else t.getD (s - 1).toNat 0

/-- End offset of the batch of `W` lines that begins at line `s`, in the
spec's words: the end of line `min (s + W) N - 1`. -/
def batchEnd (t : List Int) (W s : Int) : Int :=
  t.getD (min (s + W) t.length - 1).toNat 0

/-- An environment step with `run` set, a successful send, the throughput
window not elapsed. -/
def okEnv : Env := { run := true, produce_ok := true, window_elapsed := false, junk := 0 }

/-- An environment step with `run` set and a failed send. -/
def failEnv : Env := { run := true, produce_ok := false, window_elapsed := false, junk := 0 }

/-- Scenario D: a table of 5 lines sent 2 lines per message, no limit. -/
def scenarioD : Config :=
  { offset_table := [3, 7, 12, 14, 20]
    lines_to_send := 2
    sleep_time := 100
    is_msgs_limited := false
    msgs_to_send := 0 }

/-- Scenario D with a limit of 2 messages. -/
def scenarioLimit : Config := { scenarioD with is_msgs_limited := true, msgs_to_send := 2 }

/-- With the limit `msgs_to_send` in force, the counter has not passed it,
and it has been reached exactly when the loop has been told to stop, in
which case control is not inside the `for`. -/
def LimitInv (c : Config) (s : State) : Prop :=
  s.total_msgs_sent ≤ c.msgs_to_send ∧
    (s.send_more_msgs = false ↔ s.total_msgs_sent = c.msgs_to_send) ∧
    (s.total_msgs_sent = c.msgs_to_send → s.loc ≠ .inner_head)

/-- An environment step that finds the `run` flag cleared. -/
def cancelEnv : Env := { run := false, produce_ok := true, window_elapsed := false, junk := 0 }

/-- The send loop's configuration after a segmentation: the first
`offset_table_size` entries of the table, and the options. -/
def configOf (r : Segmented) (lines_to_send sleep_time : Int) (is_msgs_limited : Bool)
    (msgs_to_send : Nat) : Config :=
  { offset_table := (r.offset_table.take r.offset_table_size).map Int.ofNat
    lines_to_send := lines_to_send
    sleep_time := sleep_time
    is_msgs_limited := is_msgs_limited
    msgs_to_send := msgs_to_send }

/-- A 0-byte input with a message-count limit of 0 (and the default delay). -/
def emptyLimit0 : Config := configOf ⟨[], [], 0⟩ 1 100 true 0

/-- A 0-byte input with the default delay of 100 microseconds and no limit. -/
def emptyPaced : Config := configOf ⟨[], [], 0⟩ 1 100 false 18446744073709551615

/-- The payload of batch number `k` of a traversal, in the spec's words: the
range from `batchStart` to `batchEnd` of the batch that begins at line
`k * lines_to_send`, as (offset, length). -/
def batchPayload (c : Config) (k : Nat) : Int × Int :=
  (batchStart c.offset_table ((k : Int) * c.lines_to_send),
    batchEnd c.offset_table c.lines_to_send ((k : Int) * c.lines_to_send)
      - batchStart c.offset_table ((k : Int) * c.lines_to_send))

/-- The bytes `rd_kafka_produce` is handed: `bytes_to_send` bytes of `memory`
from the payload's offset on. -/
def payloadBytes (memory : List Char) (p : Int × Int) : List Char :=
  (memory.drop p.1.toNat).take p.2.toNat

/-- Offset at which batch number `k` starts when lines are sent `W` at a
time: the start of line `min (k * W) N`. -/
def cut (t : List Nat) (W k : Nat) : Nat := lineStart t (min (k * W) t.length)

/-- Scenario A after segmentation: `"aaaa bbbb cccc dddd"` with `L = 10`. -/
def scenarioA : Segmented :=
  { memory := "aaaa bbbb\ncccc dddd".toList
    offset_table := [10, 19]
    offset_table_size := 2 }

/-- The send loop over scenario A, one line per message, no limit. -/
def scenarioASend : Config := configOf scenarioA ((1 : Nat) : Int) 100 false 0

/-! ## Option validation (lines 156-183) -/

/-- The numeric options as `getopt` left them: for each option that was
given, the value `atoi` (or `atol`) reads from its argument. -/
structure Options where
  line_length_string : Option Int
  lines_to_send_string : Option Int
  sleep_time_string : Option Int
  msgs_to_send_string : Option Int
  deriving DecidableEq, Repr

/-- The `errexit` calls of lines 160-182. -/
inductive OptError where
  | invalid_line_length
  | invalid_lines_to_send
  | invalid_sleep_time
  | invalid_msgs_to_send
  deriving DecidableEq, Repr

/-- The variables the options set.  `msgs_to_send` is an `unsigned long`. -/
structure Settings where
  line_length : Int
  lines_to_send : Int
  sleep_time : Int
  msgs_to_send : Nat
  is_msgs_limited : Bool
  deriving DecidableEq, Repr

/-- The conversion `(unsigned long)` of a `long`. -/
def to_unsigned_long (v : Int) : Nat := (v % 2 ^ 64).toNat

/-- The initialisers of lines 99-102 and 117: `DEFAULT_LINE_LENGTH`,
`DEFAULT_LINES_TO_SEND`, `USECS_SLEEP_TIME`, and `MSGS_TO_SEND` (`-1`) stored
in an `unsigned long`. -/
def defaultSettings : Settings :=
  { line_length := 100
    lines_to_send := 1
    sleep_time := 100
    msgs_to_send := to_unsigned_long (-1)
    is_msgs_limited := false }

/-- Lines 156-161. -/
def checkLineLength (o : Options) (s : Settings) : Except OptError Settings :=
  match o.line_length_string with
  | none => .ok s
  | some v => if v < 1 then .error .invalid_line_length else .ok { s with line_length := v }

/-- Lines 163-168. -/
def checkLinesToSend (o : Options) (s : Settings) : Except OptError Settings :=
  match o.lines_to_send_string with
  | none => .ok s
  | some v =>
    if v ≤ 0 then .error .invalid_lines_to_send else .ok { s with lines_to_send := v }

/-- Lines 170-175. -/
def checkSleepTime (o : Options) (s : Settings) : Except OptError Settings :=
  match o.sleep_time_string with
  | none => .ok s
  | some v => if v < 0 then .error .invalid_sleep_time else .ok { s with sleep_time := v }

/-- Lines 177-183: the value is stored in the `unsigned long` first, and the
test `msgs_to_send < 0` is made on the stored value. -/
def checkMsgsToSend (o : Options) (s : Settings) : Except OptError Settings :=
  match o.msgs_to_send_string with
  | none => .ok s
  | some v =>
    let msgs_to_send : Nat := to_unsigned_long v
    if msgs_to_send < 0 then .error .invalid_msgs_to_send
    else .ok { s with msgs_to_send := msgs_to_send, is_msgs_limited := true }

/-- Lines 156-183, in order; the first failed check ends the process. -/
def validate (o : Options) : Except OptError Settings :=
  match checkLineLength o defaultSettings with
  | .error e => .error e
  | .ok s1 =>
    match checkLinesToSend o s1 with
    | .error e => .error e
    | .ok s2 =>
      match checkSleepTime o s2 with
      | .error e => .error e
      | .ok s3 => checkMsgsToSend o s3

/-! ## Loader (lines 188-220)

The file is its content, a list of bytes.  `fread` delivers the next bytes of
the stream, 16 at most, and fewer than 16 only when it reaches the end of the
file (then `feof` holds; read errors are outside the model). -/

/-- The variables of the load loop: the heap block `memory` with its
capacity `mem_size`, `file_size`, the read position of the stream, whether
`fptr` is still open, and a record of `(file_size, mem_size)` at each
`fread`. -/
structure LoadState where
  memory : List Char
  mem_size : Nat
  file_size : Nat
  pos : Nat
  fptr : Bool
  reads : List (Nat × Nat)
  deriving DecidableEq, Repr

/-- The content of a byte that was allocated and never written. -/
def unwritten : Char := Char.ofNat 0

/-- A write of `chunk` into the block `memory` at offset `pos`: the bytes that
fall inside the block replace what was there, the others are lost. -/
def writeAt (memory : List Char) (pos : Nat) (chunk : List Char) : List Char :=
  (memory.take pos ++ chunk ++ memory.drop (pos + chunk.length)).take memory.length

/-- The call `realloc(memory, mem_size)`: the content is kept up to the new
size. -/
def realloc (memory : List Char) (mem_size : Nat) : List Char :=
  (memory ++ List.replicate (mem_size - memory.length) unwritten).take mem_size

/-- Lines 188-196: the first block and the open file. -/
def loadInit : LoadState :=
  { memory := List.replicate DEFAULT_CHUNK_SIZE unwritten
    mem_size := DEFAULT_CHUNK_SIZE
    file_size := 0
    pos := 0
    fptr := true
    reads := [] }

/-- One pass through the `while(fptr)` of line 197; once the file is closed
the loop is over and the state stays. -/
def loadStep (file : List Char) (s : LoadState) : LoadState :=
  if s.fptr then
    let chunk := (file.drop s.pos).take DEFAULT_CHUNK_SIZE
    let retc := chunk.length
    let memory := writeAt s.memory s.file_size chunk
    let file_size := s.file_size + retc
    let reads := s.reads ++ [(s.file_size, s.mem_size)]
    if retc < DEFAULT_CHUNK_SIZE then
      { memory := memory
        mem_size := s.mem_size
        file_size := file_size
        pos := s.pos + retc
        fptr := false
        reads := reads }
    else
      let mem_size := s.mem_size + DEFAULT_CHUNK_SIZE
      { memory := realloc memory mem_size
        mem_size := mem_size
        file_size := file_size
        pos := s.pos + retc
        fptr := true
        reads := reads }
  else s

/-- The state after `n` passes of the load loop. -/
def loadSteps (file : List Char) : Nat → LoadState
  | 0 => loadInit
  | n + 1 => loadStep file (loadSteps file n)

/-- The loaded buffer: the first `file_size` bytes of the block. -/
def loaded (s : LoadState) : List Char := s.memory.take s.file_size

/-- Invariant of the load loop after `n` passes. -/
def LoadInv (file : List Char) (n : Nat) (s : LoadState) : Prop :=
  (∀ p ∈ s.reads, p.1 + DEFAULT_CHUNK_SIZE ≤ p.2) ∧
    if s.fptr then
      s.pos = DEFAULT_CHUNK_SIZE * n ∧ s.file_size = DEFAULT_CHUNK_SIZE * n ∧
        s.mem_size = DEFAULT_CHUNK_SIZE * n + DEFAULT_CHUNK_SIZE ∧
        s.memory.length = s.mem_size ∧
        s.memory.take s.file_size = file.take s.file_size ∧
        DEFAULT_CHUNK_SIZE * n ≤ file.length
    else
      s.file_size = file.length ∧ s.memory.take s.file_size = file

/-! ## Segmentation: lemmas -/

theorem store_length (t : List Nat) (v : Nat) : store t t.length v = t ++ [v] := by
  simp [store, List.set_append]

theorem lineStart_append_of_le (t : List Nat) (v k : Nat) (hk : k ≤ t.length) :
    lineStart (t ++ [v]) k = lineStart t k := by
  unfold lineStart
  by_cases h0 : k = 0
  · simp [h0]
  · have : k - 1 < t.length := by omega
    simp [h0, List.getD_eq_getElem?_getD, List.getElem?_append_left this]

theorem lineStart_append_last (t : List Nat) (v : Nat) :
    lineStart (t ++ [v]) (t.length + 1) = v := by
  simp [lineStart, List.getD_eq_getElem?_getD]

theorem getD_append_of_lt (t : List Nat) (v k : Nat) (hk : k < t.length) :
    (t ++ [v]).getD k 0 = t.getD k 0 := by
  simp [List.getD_eq_getElem?_getD, List.getElem?_append_left hk]

theorem getD_append_last (t : List Nat) (v : Nat) :
    (t ++ [v]).getD t.length 0 = v := by
  simp [List.getD_eq_getElem?_getD]

theorem inv_init (L : Nat) (mem : List Char) : Inv L mem 0 0 (segInit mem) := by
  constructor <;> simp [segInit, lineStart]

theorem breakLine_skip (L n : Nat) (s : SegState) (h : n - s.last_line_offset < L) :
    breakLine L n s = .ok s := by
  unfold breakLine
  rw [if_neg (by omega)]

theorem breakLine_fail (L n : Nat) (s : SegState) (h : L ≤ n - s.last_line_offset)
    (hs : s.last_space_offset = s.last_line_offset) :
    breakLine L n s = .error .line_too_long := by
  unfold breakLine
  rw [if_pos h, if_pos hs]

theorem breakLine_break (L n : Nat) (s : SegState) (h : L ≤ n - s.last_line_offset)
    (hs : s.last_space_offset ≠ s.last_line_offset) :
    breakLine L n s = .ok (broken s) := by
  unfold breakLine
  rw [if_pos h, if_neg hs]
  rfl

theorem inv_broken (L : Nat) (mem : List Char) (n : Nat) (s : SegState) (hL : 1 ≤ L)
    (hi : Inv L mem n n s) (h : L ≤ n - s.last_line_offset)
    (hs : s.last_space_offset ≠ s.last_line_offset) :
    Inv L mem (n + 1) n (broken s) := by
  have h1 := hi.line_le_space
  have h2 := hi.space_le
  have h3 := hi.within
  have hlt : s.last_line_offset < s.last_space_offset := by omega
  have hsp := hi.space_at hlt
  have hplen : s.last_space_offset < mem.length := by
    rcases Nat.lt_or_ge s.last_space_offset mem.length with h | h
    · exact h
    · rw [List.getElem?_eq_none h] at hsp; cases hsp
  have htab : (broken s).offset_table = s.offset_table ++ [s.last_space_offset + 1] := by
    simp only [broken]; rw [hi.cur, store_length]
  constructor
  · simp [broken, hi.mem_len]
  · rw [htab]; simp [broken, hi.cur]
  · simp [broken]
  · simp only [broken]; omega
  · simp only [broken]; omega
  · intro j hj
    simp only [broken] at hj ⊢
    rw [List.getElem?_set_ne (by omega)]
    exact hi.tail_eq j (by omega)
  · simp [broken]
  · intro j hj hjn
    simp only [broken] at hj
    exact hi.no_space_after j (by omega) hjn
  · rw [htab]
    rw [List.length_append, List.length_singleton, lineStart_append_last]
    simp [broken]
  · right; simpa [broken] using hsp
  · intro k hk
    rw [htab] at hk ⊢
    simp only [List.length_append, List.length_singleton] at hk
    simp only [broken]
    rcases Nat.lt_or_ge k s.offset_table.length with hk1 | hk1
    · rw [getD_append_of_lt _ _ _ hk1]
      have := hi.entries_le k hk1
      omega
    · have : k = s.offset_table.length := by omega
      rw [this, getD_append_last]
  · intro k hk
    rw [htab] at hk ⊢
    simp only [List.length_append, List.length_singleton] at hk
    rcases Nat.lt_or_ge k s.offset_table.length with hk1 | hk1
    · rw [getD_append_of_lt _ _ _ hk1, lineStart_append_of_le _ _ _ (by omega)]
      exact hi.breaks k hk1
    · have hk2 : k = s.offset_table.length := by omega
      rw [hk2, getD_append_last, lineStart_append_of_le _ _ _ (le_refl _), hi.start_eq]
      refine ⟨by omega, by omega, by simpa using hsp, ?_⟩
      intro j hj hjL
      exact hi.no_space_after j (by omega) (by omega)
  · intro k hk
    rw [htab] at hk ⊢
    simp only [List.length_append, List.length_singleton] at hk
    simp only [broken]
    rcases Nat.lt_or_ge k s.offset_table.length with hk1 | hk1
    · rw [getD_append_of_lt _ _ _ hk1]
      have hle := hi.entries_le k hk1
      have hb := (hi.breaks k hk1).1
      rw [List.getElem?_set_ne (by omega)]
      exact hi.marks k hk1
    · have hk2 : k = s.offset_table.length := by omega
      rw [hk2, getD_append_last]
      simp only [Nat.add_sub_cancel]
      rw [List.getElem?_set_self (by rw [hi.mem_len]; exact hplen)]

theorem inv_skip (L : Nat) (mem : List Char) (n : Nat) (s : SegState)
    (hi : Inv L mem n n s) (h : n - s.last_line_offset < L) :
    Inv L mem (n + 1) n s := by
  have h2 := hi.space_le
  exact { hi with space_le := by omega, within := by omega }

theorem inv_noteSpace (L : Nat) (mem : List Char) (n : Nat) (s : SegState)
    (hi : Inv L mem (n + 1) n s) : Inv L mem (n + 1) (n + 1) (noteSpace n s) := by
  have h1 := hi.line_le_space
  have h2 := hi.space_le
  have hn : s.memory[n]? = mem[n]? := hi.tail_eq n (by omega)
  unfold noteSpace
  by_cases hsp : s.memory[n]? = some ' '
  · rw [if_pos hsp]
    rw [hn] at hsp
    exact { hi with
      line_le_space := by simp only; omega
      space_le := by simp
      space_at := fun _ => hsp
      no_space_after := fun j hj hjn => by simp only at hj; omega }
  · rw [if_neg hsp]
    rw [hn] at hsp
    refine { hi with no_space_after := ?_ }
    intro j hj hjn
    rcases Nat.lt_or_ge j n with h | h
    · exact hi.no_space_after j hj h
    · have : j = n := by omega
      rw [this]; exact hsp

theorem inv_segBody (L : Nat) (mem : List Char) (n : Nat) (s s1 : SegState) (hL : 1 ≤ L)
    (hi : Inv L mem n n s) (h : segBody L n s = .ok s1) : Inv L mem (n + 1) (n + 1) s1 := by
  unfold segBody at h
  rcases Nat.lt_or_ge (n - s.last_line_offset) L with hlt | hge
  · rw [breakLine_skip L n s hlt] at h
    cases h
    exact inv_noteSpace L mem n s (inv_skip L mem n s hi hlt)
  · by_cases hs : s.last_space_offset = s.last_line_offset
    · rw [breakLine_fail L n s hge hs] at h
      cases h
    · rw [breakLine_break L n s hge hs] at h
      cases h
      exact inv_noteSpace L mem n _ (inv_broken L mem n s hL hi hge hs)

theorem scan_succ_ok (L : Nat) (mem : List Char) (n : Nat) (s1 : SegState)
    (h : scan L mem (n + 1) = .ok s1) :
    ∃ s, scan L mem n = .ok s ∧ segBody L n s = .ok s1 := by
  rw [scan] at h
  cases hs : scan L mem n with
  | error e => rw [hs] at h; cases h
  | ok s => rw [hs] at h; exact ⟨s, rfl, h⟩

theorem scan_inv (L : Nat) (mem : List Char) (hL : 1 ≤ L) :
    ∀ (n : Nat) (s : SegState), scan L mem n = .ok s → Inv L mem n n s := by
  intro n
  induction n with
  | zero =>
    intro s h
    rw [scan] at h
    cases h
    exact inv_init L mem
  | succ n ih =>
    intro s1 h
    obtain ⟨s, hs, hb⟩ := scan_succ_ok L mem n s1 h
    exact inv_segBody L mem n s s1 hL (ih s hs) hb

theorem segment_ok (L : Nat) (mem : List Char) (r : Segmented) (h : segment L mem = .ok r) :
    ∃ s, scan L mem mem.length = .ok s ∧ r = closeTable mem.length s := by
  unfold segment at h
  cases hs : scan L mem mem.length with
  | error e => rw [hs] at h; cases h
  | ok s => rw [hs] at h; cases h; exact ⟨s, rfl, rfl⟩

theorem closeTable_nonempty (mem : List Char) (L : Nat) (s : SegState) (hne : mem ≠ [])
    (hi : Inv L mem mem.length mem.length s) :
    closeTable mem.length s =
      { memory := s.memory
        offset_table := s.offset_table ++ [mem.length]
        offset_table_size := s.offset_table.length + 1 } := by
  have hpos : 0 < mem.length := List.length_pos.mpr hne
  have h1 := hi.line_le_space
  have h2 := hi.space_le
  unfold closeTable
  rw [if_pos (by omega), hi.cur, store_length]

/-- What segmentation guarantees about its result on a non-empty buffer:
the table is the list of breaks followed by the entry `file_size`. -/
theorem segment_spec (L : Nat) (mem : List Char) (r : Segmented) (hL : 1 ≤ L)
    (hne : mem ≠ []) (h : segment L mem = .ok r) :
    ∃ s, Inv L mem mem.length mem.length s ∧ r.memory = s.memory ∧
      r.offset_table = s.offset_table ++ [mem.length] ∧
      r.offset_table_size = s.offset_table.length + 1 := by
  obtain ⟨s, hs, hr⟩ := segment_ok L mem r h
  have hi := scan_inv L mem hL mem.length s hs
  rw [closeTable_nonempty mem L s hne hi] at hr
  exact ⟨s, hi, by rw [hr], by rw [hr], by rw [hr]⟩

theorem ne_nil_of_entry (L : Nat) (mem : List Char) (r : Segmented)
    (h : segment L mem = .ok r) (hk : 0 < r.offset_table.length) : mem ≠ [] := by
  rintro rfl
  have h0 : segment L [] = .ok ⟨[], [], 0⟩ := rfl
  rw [h0] at h
  cases h
  simp at hk

theorem scan_error_succ (L : Nat) (mem : List Char) (n : Nat) (e : SegError)
    (h : scan L mem n = .error e) : scan L mem (n + 1) = .error e := by
  rw [scan, h]

theorem scan_error_mono (L : Nat) (mem : List Char) (n : Nat) (e : SegError)
    (h : scan L mem n = .error e) : ∀ d, scan L mem (n + d) = .error e := by
  intro d
  induction d with
  | zero => exact h
  | succ d ih => exact scan_error_succ L mem (n + d) e ih

theorem segment_error_of_scan (L : Nat) (mem : List Char) (n : Nat) (hn : n ≤ mem.length)
    (h : scan L mem n = .error .line_too_long) : segment L mem = .error .line_too_long := by
  have := scan_error_mono L mem n _ h (mem.length - n)
  rw [show n + (mem.length - n) = mem.length by omega] at this
  unfold segment
  rw [this]

/-- A run of `L` bytes without a space, starting at `a`, stops the scan no
later than position `a + L`: no state is reached after iteration `a + L`. -/
theorem scan_fails_of_run (L : Nat) (mem : List Char) (a : Nat) (hL : 1 ≤ L)
    (hrun : ∀ j, a ≤ j → j < a + L → mem[j]? ≠ some ' ') :
    scan L mem (a + L + 1) = .error .line_too_long := by
  cases hs : scan L mem (a + L + 1) with
  | error e => cases e; rfl
  | ok s =>
    exfalso
    have hi := scan_inv L mem hL _ s hs
    have h1 := hi.line_le_space
    have h2 := hi.space_le
    have h3 := hi.within
    rcases hi.after_space with h0 | hsp
    · omega
    · exact hrun (s.last_line_offset - 1) (by omega) (by omega) hsp

/-! ## Segmentation: the claims -/

/-- C1. On a non-empty buffer, with `L >= 1`, a successful segmentation gives
a strictly increasing offset table (each entry greater than the start of its
line: `0` for the first, the previous entry otherwise), whose last entry is
the buffer length, and `offset_table_size` is the number of entries. -/
theorem offset_table_increasing (L : Nat) (mem : List Char) (r : Segmented)
    (hL : 1 ≤ L) (hne : mem ≠ []) (h : segment L mem = .ok r) :
    (∀ k, k < r.offset_table.length →
        lineStart r.offset_table k < r.offset_table.getD k 0) ∧
      r.offset_table.getLast? = some mem.length ∧
      r.offset_table_size = r.offset_table.length := by
  obtain ⟨s, hi, _, ht, hsz⟩ := segment_spec L mem r hL hne h
  have hpos : 0 < mem.length := List.length_pos.mpr hne
  have h1 := hi.line_le_space
  have h2 := hi.space_le
  refine ⟨?_, ?_, ?_⟩
  · intro k hk
    rw [ht] at hk ⊢
    simp only [List.length_append, List.length_singleton] at hk
    rcases Nat.lt_or_ge k s.offset_table.length with hk1 | hk1
    · rw [getD_append_of_lt _ _ _ hk1, lineStart_append_of_le _ _ _ (by omega)]
      have := (hi.breaks k hk1).1
      omega
    · have hk2 : k = s.offset_table.length := by omega
      rw [hk2, getD_append_last, lineStart_append_of_le _ _ _ (le_refl _), hi.start_eq]
      omega
  · rw [ht]; simp
  · rw [ht, hsz]; simp

theorem offset_table_increasing_witness :
    (∀ k, k < [10, 19].length → lineStart [10, 19] k < [10, 19].getD k 0) ∧
      [10, 19].getLast? = some "aaaa bbbb cccc dddd".toList.length ∧
      2 = [10, 19].length :=
  offset_table_increasing 10 "aaaa bbbb cccc dddd".toList
    ⟨"aaaa bbbb\ncccc dddd".toList, [10, 19], 2⟩ (by decide) (by decide) rfl

/-- C2. With `L >= 1`, after a successful segmentation every line but the
last has length at most `L`, the length of line `k` being its entry minus
the start of the line (so the line-break byte is counted). -/
theorem line_length_le (L : Nat) (mem : List Char) (r : Segmented)
    (hL : 1 ≤ L) (h : segment L mem = .ok r) (k : Nat)
    (hk : k + 1 < r.offset_table.length) :
    r.offset_table.getD k 0 - lineStart r.offset_table k ≤ L := by
  have hne : mem ≠ [] := ne_nil_of_entry L mem r h (by omega)
  obtain ⟨s, hi, _, ht, _⟩ := segment_spec L mem r hL hne h
  rw [ht] at hk ⊢
  simp only [List.length_append, List.length_singleton] at hk
  have hk1 : k < s.offset_table.length := by omega
  rw [getD_append_of_lt _ _ _ hk1, lineStart_append_of_le _ _ _ (by omega)]
  have := (hi.breaks k hk1).2.1
  omega

theorem line_length_le_witness :
    [10, 19].getD 0 0 - lineStart [10, 19] 0 ≤ 10 :=
  line_length_le 10 "aaaa bbbb cccc dddd".toList
    ⟨"aaaa bbbb\ncccc dddd".toList, [10, 19], 2⟩ (by decide) rfl 0 (by decide)

/-- C3. Greedy break rule: with `L >= 1`, after a successful segmentation
every line `k` but the last, starting at `st`, ends at `p + 1` where `p` is
the greatest index with `st < p < st + L` at which the original buffer holds
a space; the segmented buffer holds `'\n'` at `p`, and line `k + 1` starts at
`p + 1`. -/
theorem greedy_break_rule (L : Nat) (mem : List Char) (r : Segmented)
    (hL : 1 ≤ L) (h : segment L mem = .ok r) (k : Nat)
    (hk : k + 1 < r.offset_table.length) :
    ∃ p, r.offset_table.getD k 0 = p + 1 ∧
      lineStart r.offset_table k < p ∧ p < lineStart r.offset_table k + L ∧
      mem[p]? = some ' ' ∧
      (∀ j, p < j → j < lineStart r.offset_table k + L → mem[j]? ≠ some ' ') ∧
      r.memory[p]? = some '\n' ∧
      lineStart r.offset_table (k + 1) = p + 1 := by
  have hne : mem ≠ [] := ne_nil_of_entry L mem r h (by omega)
  obtain ⟨s, hi, hm, ht, _⟩ := segment_spec L mem r hL hne h
  rw [ht] at hk
  simp only [List.length_append, List.length_singleton] at hk
  have hk1 : k < s.offset_table.length := by omega
  have hst : lineStart r.offset_table k = lineStart s.offset_table k := by
    rw [ht, lineStart_append_of_le _ _ _ (by omega)]
  have he : r.offset_table.getD k 0 = s.offset_table.getD k 0 := by
    rw [ht, getD_append_of_lt _ _ _ hk1]
  obtain ⟨b1, b2, b3, b4⟩ := hi.breaks k hk1
  have hmark := hi.marks k hk1
  refine ⟨s.offset_table.getD k 0 - 1, ?_, ?_, ?_, b3, ?_, ?_, ?_⟩
  · rw [he]; omega
  · rw [hst]; omega
  · rw [hst]; omega
  · intro j hj hjL
    rw [hst] at hjL
    exact b4 j (by omega) hjL
  · rw [hm]; exact hmark
  · have : lineStart r.offset_table (k + 1) = r.offset_table.getD k 0 := by
      simp [lineStart]
    rw [this, he]; omega

theorem greedy_break_rule_witness :
    segment 10 "aaaa bbbb cccc dddd".toList
        = .ok ⟨"aaaa bbbb\ncccc dddd".toList, [10, 19], 2⟩ ∧
      ∃ p, [10, 19].getD 0 0 = p + 1 ∧
        lineStart [10, 19] 0 < p ∧ p < lineStart [10, 19] 0 + 10 ∧
        "aaaa bbbb cccc dddd".toList[p]? = some ' ' ∧
        (∀ j, p < j → j < lineStart [10, 19] 0 + 10 →
          "aaaa bbbb cccc dddd".toList[j]? ≠ some ' ') ∧
        "aaaa bbbb\ncccc dddd".toList[p]? = some '\n' ∧
        lineStart [10, 19] (0 + 1) = p + 1 :=
  ⟨rfl, greedy_break_rule 10 "aaaa bbbb cccc dddd".toList
    ⟨"aaaa bbbb\ncccc dddd".toList, [10, 19], 2⟩ (by decide) rfl 0 (by decide)⟩

/-- C4. With `L >= 1`, a buffer that contains a run of more than `L`
consecutive bytes none of which is a space (the `L + 1` bytes at `a .. a + L`)
is not segmented: the process ends with "Line too long". -/
theorem run_longer_than_L_fails (L : Nat) (mem : List Char) (a : Nat) (hL : 1 ≤ L)
    (hlen : a + L < mem.length)
    (hrun : ∀ j, a ≤ j → j ≤ a + L → mem[j]? ≠ some ' ') :
    segment L mem = .error .line_too_long :=
  segment_error_of_scan L mem (a + L + 1) (by omega)
    (scan_fails_of_run L mem a hL (fun j h1 h2 => hrun j h1 (by omega)))

theorem run_longer_than_L_fails_witness :
    segment 5 "abcdefghij".toList = .error .line_too_long :=
  run_longer_than_L_fails 5 "abcdefghij".toList 0 (by decide) (by decide)
    (by intro j _ h; interval_cases j <;> decide)

/-- C5, as stated, fails: a buffer that is exactly `L` bytes without a
space (here `"abcde"`, `L = 5`) begins with `L` non-space bytes and is
segmented into the single line `[5]`. -/
theorem run_of_L_at_end_accepted :
    ' ' ∉ "abcde".toList ∧ "abcde".toList.length = 5 ∧
      segment 5 "abcde".toList = .ok ⟨"abcde".toList, [5], 1⟩ :=
  ⟨by decide, rfl, rfl⟩

/-- C5, amended. With `L >= 1`, a buffer that contains `L` consecutive bytes
none of which is a space (at `a .. a + L - 1`, wherever the line starts) and
at least one more byte after them is not segmented: the process ends with
"Line too long". -/
theorem run_of_L_then_byte_fails (L : Nat) (mem : List Char) (a : Nat) (hL : 1 ≤ L)
    (hlen : a + L < mem.length)
    (hrun : ∀ j, a ≤ j → j < a + L → mem[j]? ≠ some ' ') :
    segment L mem = .error .line_too_long :=
  segment_error_of_scan L mem (a + L + 1) (by omega) (scan_fails_of_run L mem a hL hrun)

theorem run_of_L_then_byte_fails_witness :
    segment 5 "abcde f".toList = .error .line_too_long :=
  run_of_L_then_byte_fails 5 "abcde f".toList 0 (by decide) (by decide)
    (by intro j _ h; interval_cases j <;> decide)

/-- C6, as stated, fails: in `" abcde"` with `L = 5` the scan reaches
position `5 = 0 + L` with line start `0`, the buffer holds a space at index
`0` (line start `<= 0 < 5`), and the iteration at position `5` ends the
process with "Line too long". -/
theorem space_at_line_start_not_used :
    scan 5 " abcde".toList 5 = .ok ⟨" abcde".toList, [], 0, 16, 0, 0⟩ ∧
      " abcde".toList[0]? = some ' ' ∧
      segBody 5 5 ⟨" abcde".toList, [], 0, 16, 0, 0⟩ = .error .line_too_long ∧
      segment 5 " abcde".toList = .error .line_too_long :=
  ⟨rfl, rfl, rfl, rfl⟩

/-- C6, amended. With `L >= 1`, when the scan reaches position
`n = line start + L` inside the buffer and the original buffer holds a space
at some index `j` with `line start < j < n`, the iteration at `n` does not
fail: it breaks the line at the greatest such index `p`, writing `'\n'` at
`p`, appending the entry `p + 1` and starting the next line at `p + 1`. -/
theorem break_at_most_recent_space (L : Nat) (mem : List Char) (n : Nat) (s : SegState)
    (hL : 1 ≤ L) (_hn : n < mem.length) (hs : scan L mem n = .ok s)
    (hge : L ≤ n - s.last_line_offset)
    (j : Nat) (hj : s.last_line_offset < j) (hjn : j < n) (hsp : mem[j]? = some ' ') :
    ∃ p s1, s.last_line_offset < p ∧ p < n ∧ mem[p]? = some ' ' ∧
      (∀ i, p < i → i < n → mem[i]? ≠ some ' ') ∧
      scan L mem (n + 1) = .ok s1 ∧
      s1.offset_table = s.offset_table ++ [p + 1] ∧
      s1.memory[p]? = some '\n' ∧
      s1.last_line_offset = p + 1 := by
  have hi := scan_inv L mem hL n s hs
  have h1 := hi.line_le_space
  have h2 := hi.space_le
  have hne : s.last_space_offset ≠ s.last_line_offset := by
    intro heq
    exact hi.no_space_after j (by omega) hjn hsp
  have hlt : s.last_line_offset < s.last_space_offset := by omega
  have hsc : scan L mem (n + 1) = .ok (noteSpace n (broken s)) := by
    rw [scan, hs]
    simp only [segBody]
    rw [breakLine_break L n s hge hne]
  have hi1 := scan_inv L mem hL (n + 1) _ hsc
  have hb := inv_broken L mem n s hL hi hge hne
  have hns : ∀ t : SegState, (noteSpace n t).offset_table = t.offset_table ∧
      (noteSpace n t).memory = t.memory ∧
      (noteSpace n t).last_line_offset = t.last_line_offset := by
    intro t
    unfold noteSpace
    split <;> simp
  have htab : (broken s).offset_table = s.offset_table ++ [s.last_space_offset + 1] := by
    simp only [broken]; rw [hi.cur, store_length]
  refine ⟨s.last_space_offset, noteSpace n (broken s), hlt, by omega, hi.space_at hlt,
    hi.no_space_after, hsc, ?_, ?_, ?_⟩
  · rw [(hns _).1, htab]
  · rw [(hns _).2.1]
    have := hb.marks s.offset_table.length (by rw [htab]; simp)
    rw [htab, getD_append_last] at this
    simpa using this
  · rw [(hns _).2.2]
    rfl

theorem break_at_most_recent_space_witness :
    ∃ p s1, 0 < p ∧ p < 10 ∧ "aaaa bbbb cccc dddd".toList[p]? = some ' ' ∧
      (∀ i, p < i → i < 10 → "aaaa bbbb cccc dddd".toList[i]? ≠ some ' ') ∧
      scan 10 "aaaa bbbb cccc dddd".toList (10 + 1) = .ok s1 ∧
      s1.offset_table = [] ++ [p + 1] ∧
      s1.memory[p]? = some '\n' ∧
      s1.last_line_offset = p + 1 :=
  break_at_most_recent_space 10 "aaaa bbbb cccc dddd".toList 10
    ⟨"aaaa bbbb cccc dddd".toList, [], 0, 16, 9, 0⟩ (by decide) (by decide) rfl
    (by decide) 4 (by decide) (by decide) rfl

/-! ## Send loop: lemmas -/

theorem runSteps_nil (c : Config) (s : State) : runSteps c [] s = s := rfl

theorem runSteps_cons (c : Config) (e : Env) (envs : List Env) (s : State) :
    runSteps c (e :: envs) s = runSteps c envs (step c e s) := rfl

theorem runSteps_snoc (c : Config) (envs : List Env) (e : Env) (s : State) :
    runSteps c (envs ++ [e]) s = step c e (runSteps c envs s) := by
  simp [runSteps, List.foldl_append]

theorem step_finished (c : Config) (e : Env) (s : State) (h : s.loc = .finished) :
    step c e s = s := by
  simp [step, h]

theorem runSteps_finished (c : Config) (envs : List Env) :
    ∀ s : State, s.loc = .finished → runSteps c envs s = s := by
  induction envs with
  | nil => intro s _; rfl
  | cons e envs ih =>
    intro s h
    rw [runSteps_cons, step_finished c e s h]
    exact ih s h

/-- A pass of the `for` that finds the loop test true and `run` set calls
`rd_kafka_produce` once, with the payload that starts at `line_offset` and
stops at the table entry before `batchIndex`. -/
theorem iteration_produced (c : Config) (e : Env) (s : State)
    (hlt : s.lines_sent < c.offset_table_size) (hrun : e.run = true) :
    (iteration c e s).produced = s.produced ++
      [(s.line_offset,
        readTable c.offset_table e.junk (batchIndex c s.lines_sent - 1) - s.line_offset)] := by
  unfold iteration
  rw [if_pos hlt, if_neg (by simp [hrun])]
  simp only
  split
  · rfl
  · split <;> rfl

theorem readTable_inside (t : List Int) (junk i : Int) (h0 : 0 ≤ i) (h1 : i < t.length) :
    readTable t junk i = t.getD i.toNat 0 := by
  unfold readTable
  rw [if_pos ⟨h0, h1⟩]

/-- A pass of the `for` with the loop test true, `run` set and a successful
send either ends the loop by the limit or moves on to the next batch, with
`line_offset` read from the table at `lines_sent + lines_to_send - 1`. -/
theorem iteration_ok (c : Config) (e : Env) (s : State)
    (hlt : s.lines_sent < c.offset_table_size) (hrun : e.run = true)
    (hok : e.produce_ok = true) :
    ((iteration c e s).loc = .outer_head ∧ (iteration c e s).send_more_msgs = false) ∨
      ((iteration c e s).loc = s.loc ∧
        (iteration c e s).lines_sent = s.lines_sent + c.lines_to_send ∧
        (iteration c e s).line_offset =
          readTable c.offset_table e.junk (s.lines_sent + c.lines_to_send - 1)) := by
  by_cases hlim : (c.is_msgs_limited &&
      (s.total_msgs_sent + 1) % 2 ^ 64 == c.msgs_to_send) = true
  · left
    unfold iteration
    rw [if_pos hlt, if_neg (by simp [hrun]), if_neg (by simp [hok])]
    simp only [hlim, if_true, and_self]
  · right
    unfold iteration
    rw [if_pos hlt, if_neg (by simp [hrun]), if_neg (by simp [hok])]
    simp only [hlim, if_false, and_self]
    trivial

/-- After `k` passes of the `for` from the start of a traversal, all with
`run` set and a successful send, and with batch `k` still inside the table:
either the traversal is at batch `k`, or the limit has ended the loop. -/
theorem traversal_prefix (c : Config) (st0 : State) (hW : 1 ≤ c.lines_to_send)
    (hloc : st0.loc = .inner_head) (hls : st0.lines_sent = 0) (hlo : st0.line_offset = 0) :
    ∀ envs : List Env, (∀ e ∈ envs, e.run = true ∧ e.produce_ok = true) →
      (envs.length : Int) * c.lines_to_send < c.offset_table_size →
      ((runSteps c envs st0).loc = .inner_head ∧
          (runSteps c envs st0).lines_sent = (envs.length : Int) * c.lines_to_send ∧
          (runSteps c envs st0).line_offset =
            batchStart c.offset_table ((envs.length : Int) * c.lines_to_send)) ∨
        ((runSteps c envs st0).loc = .outer_head ∧
          (runSteps c envs st0).send_more_msgs = false) ∨
        (runSteps c envs st0).loc = .finished := by
  intro envs
  induction envs using List.reverseRecOn with
  | nil =>
    intro _ _
    left
    simp [runSteps_nil, hloc, hls, hlo, batchStart]
  | append_singleton envs e ih =>
    intro hall hlen
    rw [runSteps_snoc]
    have hk : (0 : Int) ≤ (envs.length : Int) := Int.natCast_nonneg _
    have hcast : (((envs ++ [e]).length : Nat) : Int) = (envs.length : Int) + 1 := by
      simp
    have hlen1 : ((envs.length : Int) + 1) * c.lines_to_send < c.offset_table_size := by
      rw [← hcast]; exact hlen
    have hmul : (envs.length : Int) * c.lines_to_send + c.lines_to_send
        = ((envs.length : Int) + 1) * c.lines_to_send := by ring
    have hnn : 0 ≤ (envs.length : Int) * c.lines_to_send :=
      Int.mul_nonneg hk (by omega)
    have he := hall e (by simp)
    rcases ih (fun x hx => hall x (by simp [hx])) (by omega) with ⟨h1, h2, _⟩ | ⟨h1, h2⟩ | h1
    · have hlt : (runSteps c envs st0).lines_sent < c.offset_table_size := by
        rw [h2]; omega
      have hin : 0 ≤ (envs.length : Int) * c.lines_to_send + c.lines_to_send - 1 ∧
          (envs.length : Int) * c.lines_to_send + c.lines_to_send - 1
            < (c.offset_table.length : Int) := by
        unfold Config.offset_table_size at hlen1
        constructor <;> omega
      have hstep : step c e (runSteps c envs st0) = iteration c e (runSteps c envs st0) := by
        simp [step, h1]
      rw [hstep]
      rcases iteration_ok c e _ hlt he.1 he.2 with ⟨g1, g2⟩ | ⟨g1, g2, g3⟩
      · right; left
        exact ⟨g1, g2⟩
      · left
        refine ⟨by rw [g1, h1], ?_, ?_⟩
        · rw [g2, h2, hcast, hmul]
        · rw [g3, h2, readTable_inside _ _ _ hin.1 hin.2, hcast, hmul]
          unfold batchStart
          rw [if_neg (by omega)]
    · right; right
      simp [step, h1, outerHead, h2]
    · right; right
      rw [step_finished c e _ h1]
      exact h1

theorem batchIndex_eq_min (c : Config) (s : Int) :
    batchIndex c s = min (s + c.lines_to_send) c.offset_table.length := by
  unfold batchIndex Config.offset_table_size
  split
  · rw [min_eq_right (by omega)]
  · rw [min_eq_left (by omega)]

theorem limitInv_init (c : Config) (h1 : 1 ≤ c.msgs_to_send) : LimitInv c sendInit := by
  refine ⟨by simp [sendInit], ?_, ?_⟩
  · simp only [sendInit]
    constructor
    · intro h; cases h
    · intro h; omega
  · simp only [sendInit]
    intro h; omega

theorem limitInv_outerHead (c : Config) (e : Env) (s : State) (hi : LimitInv c s) :
    LimitInv c (outerHead e s) := by
  obtain ⟨a, b, _⟩ := hi
  unfold outerHead
  split
  · rename_i h
    have hsm : s.send_more_msgs = true := by
      simp only [Bool.and_eq_true] at h
      exact h.2
    refine ⟨a, b, ?_⟩
    intro ht
    have := b.mpr ht
    rw [hsm] at this
    cases this
  · exact ⟨a, b, fun _ h => by cases h⟩

theorem limitInv_iteration (c : Config) (e : Env) (s : State)
    (hlim : c.is_msgs_limited = true) (h2 : c.msgs_to_send < 2 ^ 64)
    (hloc : s.loc = .inner_head) (hi : LimitInv c s) :
    LimitInv c (iteration c e s) := by
  obtain ⟨a, b, d⟩ := hi
  have hne : s.total_msgs_sent ≠ c.msgs_to_send := fun h => d h hloc
  have hlt : s.total_msgs_sent + 1 < 2 ^ 64 := by omega
  have hmod : (s.total_msgs_sent + 1) % 2 ^ 64 = s.total_msgs_sent + 1 := Nat.mod_eq_of_lt hlt
  unfold iteration
  split
  · split
    · exact ⟨a, b, fun _ h => by cases h⟩
    · simp only
      split
      · exact ⟨a, b, fun h => absurd h hne⟩
      · rw [hmod, hlim]
        by_cases hr : s.total_msgs_sent + 1 = c.msgs_to_send
        · simp only [hr, Bool.true_and, beq_self_eq_true, if_true]
          exact ⟨le_refl _, by simp, fun _ h => by cases h⟩
        · have hb : (s.total_msgs_sent + 1 == c.msgs_to_send) = false := by
            simpa using hr
          simp only [hb, Bool.and_false, Bool.false_eq_true, ↓reduceIte]
          refine ⟨?_, ?_, fun h => absurd h hr⟩
          · show s.total_msgs_sent + 1 ≤ c.msgs_to_send
            omega
          constructor
          · intro h; exact absurd (b.mp h) hne
          · intro h; exact absurd h hr
  · exact ⟨a, b, fun _ h => by cases h⟩

theorem limitInv_step (c : Config) (e : Env) (s : State)
    (hlim : c.is_msgs_limited = true) (h2 : c.msgs_to_send < 2 ^ 64) (hi : LimitInv c s) :
    LimitInv c (step c e s) := by
  unfold step
  split
  · exact limitInv_outerHead c e s hi
  · rename_i h
    exact limitInv_iteration c e s hlim h2 h hi
  · exact hi

theorem limitInv_runSteps (c : Config) (hlim : c.is_msgs_limited = true)
    (h2 : c.msgs_to_send < 2 ^ 64) (envs : List Env) :
    ∀ s : State, LimitInv c s → LimitInv c (runSteps c envs s) := by
  induction envs with
  | nil => intro s h; exact h
  | cons e envs ih =>
    intro s h
    rw [runSteps_cons]
    exact ih _ (limitInv_step c e s hlim h2 h)

/-- Once the loop has been told to stop and control is outside the `for`,
the next step ends the loop and nothing else changes, whatever follows. -/
theorem stopped_runSteps (c : Config) (s : State) (hsm : s.send_more_msgs = false)
    (hloc : s.loc ≠ .inner_head) (e : Env) (more : List Env) :
    runSteps c (e :: more) s = { s with loc := .finished } := by
  rw [runSteps_cons]
  have hstep : step c e s = { s with loc := .finished } := by
    unfold step
    split
    · simp [outerHead, hsm]
    · rename_i h; exact absurd h hloc
    · rename_i h
      cases s
      simp only at h
      simp [h]
  rw [hstep]
  exact runSteps_finished c more _ rfl

/-! ## Send loop: the claims -/

/-- C7. Batch range: with `W >= 1` lines per message, in a traversal whose
first `k` passes all found `run` set and sent successfully, and that is
still running at batch start `s = k * W < N`, the next pass (with `run` set)
calls `rd_kafka_produce` with the payload that starts at `0` if `s = 0` and
at `offset_table[s - 1]` otherwise, and ends at
`offset_table[min (s + W) N - 1]`; when `s + W > N` that end is the last
entry of the table. -/
theorem batch_range (c : Config) (st0 : State) (envs : List Env) (e : Env)
    (hW : 1 ≤ c.lines_to_send)
    (hloc : st0.loc = .inner_head) (hls : st0.lines_sent = 0) (hlo : st0.line_offset = 0)
    (hall : ∀ x ∈ envs, x.run = true ∧ x.produce_ok = true)
    (hs : (envs.length : Int) * c.lines_to_send < c.offset_table_size)
    (hreach : (runSteps c envs st0).loc = .inner_head)
    (hrun : e.run = true) :
    (step c e (runSteps c envs st0)).produced = (runSteps c envs st0).produced ++
        [(batchStart c.offset_table ((envs.length : Int) * c.lines_to_send),
          batchEnd c.offset_table c.lines_to_send ((envs.length : Int) * c.lines_to_send)
            - batchStart c.offset_table ((envs.length : Int) * c.lines_to_send))] ∧
      ((envs.length : Int) * c.lines_to_send + c.lines_to_send > c.offset_table_size →
        batchEnd c.offset_table c.lines_to_send ((envs.length : Int) * c.lines_to_send)
          = c.offset_table.getD (c.offset_table.length - 1) 0) := by
  have hnn : 0 ≤ (envs.length : Int) * c.lines_to_send :=
    Int.mul_nonneg (Int.natCast_nonneg _) (by omega)
  have hN : ((c.offset_table.length : Nat) : Int) = c.offset_table_size := rfl
  constructor
  · rcases traversal_prefix c st0 hW hloc hls hlo envs hall hs with ⟨h1, h2, h3⟩ | ⟨h1, _⟩ | h1
    · have hstep : step c e (runSteps c envs st0) = iteration c e (runSteps c envs st0) := by
        simp [step, h1]
      rw [hstep, iteration_produced c e _ (by rw [h2]; exact hs) hrun, h2, h3]
      have hidx := batchIndex_eq_min c ((envs.length : Int) * c.lines_to_send)
      have hin : 0 ≤ batchIndex c ((envs.length : Int) * c.lines_to_send) - 1 ∧
          batchIndex c ((envs.length : Int) * c.lines_to_send) - 1
            < (c.offset_table.length : Int) := by
        unfold batchIndex
        rw [hN]
        split <;> constructor <;> omega
      rw [readTable_inside _ _ _ hin.1 hin.2, hidx]
      rfl
    · rw [h1] at hreach; cases hreach
    · rw [h1] at hreach; cases hreach
  · intro hgt
    unfold batchEnd
    rw [min_eq_right (by rw [hN]; omega)]
    congr 1
    omega

theorem batch_range_witness :
    (runSteps scenarioD [okEnv, okEnv, okEnv, okEnv] sendInit).produced
        = [(0, 7), (7, 7), (14, 6)] ∧
      ((step scenarioD okEnv (runSteps scenarioD [okEnv, okEnv] (step scenarioD okEnv sendInit))).produced
          = (runSteps scenarioD [okEnv, okEnv] (step scenarioD okEnv sendInit)).produced ++
            [(batchStart scenarioD.offset_table (([okEnv, okEnv].length : Int) * scenarioD.lines_to_send),
              batchEnd scenarioD.offset_table scenarioD.lines_to_send
                  (([okEnv, okEnv].length : Int) * scenarioD.lines_to_send)
                - batchStart scenarioD.offset_table
                  (([okEnv, okEnv].length : Int) * scenarioD.lines_to_send))] ∧
        (([okEnv, okEnv].length : Int) * scenarioD.lines_to_send + scenarioD.lines_to_send
            > scenarioD.offset_table_size →
          batchEnd scenarioD.offset_table scenarioD.lines_to_send
              (([okEnv, okEnv].length : Int) * scenarioD.lines_to_send)
            = scenarioD.offset_table.getD (scenarioD.offset_table.length - 1) 0)) :=
  ⟨by decide, batch_range scenarioD (step scenarioD okEnv sendInit) [okEnv, okEnv] okEnv
    (by decide) (by decide) (by decide) (by decide) (by decide) (by decide) (by decide)
    (by decide)⟩

/-- C8, the code at the failing input. In scenario D (5 lines, 2 per
message) a traversal with three successful sends reads `offset_table` at
the indices `1, 1, 3, 3, 4, 5`: the last read, the update of `line_offset`
after the send of the final partial batch (line 369), is at index `5`, which
is not below `offset_table_size = 5`. -/
theorem last_batch_reads_past_table :
    (runSteps scenarioD [okEnv, okEnv, okEnv, okEnv] sendInit).table_reads
        = [1, 1, 3, 3, 4, 5] ∧
      scenarioD.offset_table_size = 5 ∧
      ¬ ∀ i ∈ (runSteps scenarioD [okEnv, okEnv, okEnv, okEnv] sendInit).table_reads,
        0 ≤ i ∧ i < scenarioD.offset_table_size :=
  ⟨by decide, by decide, by decide⟩

/-- C9, the code at the failing input. In scenario D, at the first batch of
a traversal (`total_bytes_sent = 0`, `total_msgs_sent = 0`), a failed send of
the 7-byte payload leaves `total_msgs_sent = 0` and sets
`total_bytes_sent` to `-7` (line 336). -/
theorem failed_send_decrements_bytes :
    (step scenarioD okEnv sendInit).total_bytes_sent = 0 ∧
      (step scenarioD okEnv sendInit).total_msgs_sent = 0 ∧
      (step scenarioD failEnv (step scenarioD okEnv sendInit)).produced = [(0, 7)] ∧
      (step scenarioD failEnv (step scenarioD okEnv sendInit)).total_msgs_sent = 0 ∧
      (step scenarioD failEnv (step scenarioD okEnv sendInit)).total_bytes_sent = -7 :=
  ⟨by decide, by decide, by decide, by decide, by decide⟩

/-- C10. Message-count limit: with a limit `m = msgs_to_send >= 1` (an
`unsigned long`) in force, whatever the table and whatever the environment
does, `total_msgs_sent` never exceeds `m`; the loop is told to stop only
with `total_msgs_sent = m`; and once `total_msgs_sent = m` the next step ends
the loop with every variable and the record of submissions unchanged, so no
submission follows the send that reached the limit. -/
theorem limit_stops_loop (c : Config) (envs : List Env)
    (hlim : c.is_msgs_limited = true) (h1 : 1 ≤ c.msgs_to_send)
    (h2 : c.msgs_to_send < 2 ^ 64) :
    (runSteps c envs sendInit).total_msgs_sent ≤ c.msgs_to_send ∧
      ((runSteps c envs sendInit).send_more_msgs = false →
        (runSteps c envs sendInit).total_msgs_sent = c.msgs_to_send) ∧
      ((runSteps c envs sendInit).total_msgs_sent = c.msgs_to_send →
        ∀ (e : Env) (more : List Env),
          runSteps c (e :: more) (runSteps c envs sendInit)
            = { runSteps c envs sendInit with loc := .finished }) := by
  obtain ⟨a, b, d⟩ := limitInv_runSteps c hlim h2 envs sendInit (limitInv_init c h1)
  refine ⟨a, b.mp, ?_⟩
  intro ht e more
  exact stopped_runSteps c _ (b.mpr ht) (d ht) e more

theorem limit_stops_loop_witness :
    (runSteps scenarioLimit [okEnv, okEnv, okEnv, okEnv, okEnv, okEnv] sendInit).produced
        = [(0, 7), (7, 7)] ∧
      (runSteps scenarioLimit [okEnv, okEnv, okEnv] sendInit).total_msgs_sent = 2 ∧
      ((runSteps scenarioLimit [okEnv, okEnv, okEnv] sendInit).total_msgs_sent
          ≤ scenarioLimit.msgs_to_send ∧
        ((runSteps scenarioLimit [okEnv, okEnv, okEnv] sendInit).send_more_msgs = false →
          (runSteps scenarioLimit [okEnv, okEnv, okEnv] sendInit).total_msgs_sent
            = scenarioLimit.msgs_to_send) ∧
        ((runSteps scenarioLimit [okEnv, okEnv, okEnv] sendInit).total_msgs_sent
            = scenarioLimit.msgs_to_send →
          ∀ (e : Env) (more : List Env),
            runSteps scenarioLimit (e :: more) (runSteps scenarioLimit [okEnv, okEnv, okEnv] sendInit)
              = { runSteps scenarioLimit [okEnv, okEnv, okEnv] sendInit with loc := .finished })) :=
  ⟨by decide, by decide,
    limit_stops_loop scenarioLimit [okEnv, okEnv, okEnv] (by decide) (by decide) (by decide)⟩

/-! ## Segmentation: frame and short buffers -/

theorem noteSpace_memory (n : Nat) (s : SegState) :
    (noteSpace n s).memory = s.memory ∧ (noteSpace n s).offset_table = s.offset_table := by
  unfold noteSpace
  split <;> exact ⟨rfl, rfl⟩

theorem frame_noteSpace (mem : List Char) (n : Nat) (s : SegState) (h : Frame mem s) :
    Frame mem (noteSpace n s) := by
  intro j hj
  rw [(noteSpace_memory n s).1]
  rw [(noteSpace_memory n s).2] at hj
  exact h j hj

theorem frame_broken (L : Nat) (mem : List Char) (n : Nat) (s : SegState)
    (hi : Inv L mem n n s) (h : Frame mem s) : Frame mem (broken s) := by
  have htab : (broken s).offset_table = s.offset_table ++ [s.last_space_offset + 1] := by
    simp only [broken]; rw [hi.cur, store_length]
  intro j hj
  rw [htab] at hj
  have hlast := hj s.offset_table.length (by simp)
  rw [getD_append_last] at hlast
  have hold : ∀ k, k < s.offset_table.length → j + 1 ≠ s.offset_table.getD k 0 := by
    intro k hk
    have := hj k (by simp; omega)
    rwa [getD_append_of_lt _ _ _ hk] at this
  simp only [broken]
  rw [List.getElem?_set_ne (by omega)]
  exact h j hold

theorem scan_frame (L : Nat) (mem : List Char) (hL : 1 ≤ L) :
    ∀ (n : Nat) (s : SegState), scan L mem n = .ok s → Frame mem s := by
  intro n
  induction n with
  | zero =>
    intro s h
    rw [scan] at h
    cases h
    intro j _
    rfl
  | succ n ih =>
    intro s1 h
    obtain ⟨s, hs, hb⟩ := scan_succ_ok L mem n s1 h
    have hi := scan_inv L mem hL n s hs
    have hf := ih s hs
    unfold segBody at hb
    rcases Nat.lt_or_ge (n - s.last_line_offset) L with hlt | hge
    · rw [breakLine_skip L n s hlt] at hb
      cases hb
      exact frame_noteSpace mem n s hf
    · by_cases hsp : s.last_space_offset = s.last_line_offset
      · rw [breakLine_fail L n s hge hsp] at hb
        cases hb
      · rw [breakLine_break L n s hge hsp] at hb
        cases hb
        exact frame_noteSpace mem n _ (frame_broken L mem n s hi hf)

theorem segment_nil (L : Nat) : segment L [] = .ok ⟨[], [], 0⟩ := rfl

/-- A buffer no longer than `L` is scanned without a break: only
`last_space_offset` moves. -/
theorem scan_short (L : Nat) (mem : List Char) (hlen : mem.length ≤ L) :
    ∀ n, n ≤ mem.length →
      ∃ ls, scan L mem n = .ok ⟨mem, [], 0, DEFAULT_CHUNK_SIZE, ls, 0⟩ := by
  intro n
  induction n with
  | zero => intro _; exact ⟨0, rfl⟩
  | succ n ih =>
    intro hn
    obtain ⟨ls, hs⟩ := ih (by omega)
    rw [scan, hs]
    simp only [segBody]
    rw [breakLine_skip L n _ (by simp only; omega)]
    simp only [noteSpace]
    split
    · exact ⟨n, rfl⟩
    · exact ⟨ls, rfl⟩

/-! ## Segmentation: further claims -/

/-- C15. Frame of segmentation: with `L >= 1`, a successful segmentation
leaves the buffer length unchanged; at index `e - 1` for every entry `e` but
the last the original byte was a space and the segmented byte is `'\n'`; every
byte at another index is unchanged. -/
theorem segmentation_frame (L : Nat) (mem : List Char) (r : Segmented)
    (hL : 1 ≤ L) (h : segment L mem = .ok r) :
    r.memory.length = mem.length ∧
      (∀ k, k + 1 < r.offset_table.length →
        mem[r.offset_table.getD k 0 - 1]? = some ' ' ∧
        r.memory[r.offset_table.getD k 0 - 1]? = some '\n') ∧
      (∀ j, (∀ k, k + 1 < r.offset_table.length → j ≠ r.offset_table.getD k 0 - 1) →
        r.memory[j]? = mem[j]?) := by
  by_cases hne : mem = []
  · subst hne
    rw [segment_nil] at h
    cases h
    simp
  · obtain ⟨s, hs, hr⟩ := segment_ok L mem r h
    obtain ⟨s2, hi, hm, ht, _⟩ := segment_spec L mem r hL hne h
    have hi1 := scan_inv L mem hL mem.length s hs
    have hf := scan_frame L mem hL mem.length s hs
    have hmem : r.memory = s.memory := by
      rw [hr, closeTable_nonempty mem L s hne hi1]
    have htab : r.offset_table = s.offset_table ++ [mem.length] := by
      rw [hr, closeTable_nonempty mem L s hne hi1]
    have hlen : r.offset_table.length = s.offset_table.length + 1 := by
      rw [htab]; simp
    refine ⟨by rw [hmem, hi1.mem_len], ?_, ?_⟩
    · intro k hk
      have hk1 : k < s.offset_table.length := by omega
      rw [htab, getD_append_of_lt _ _ _ hk1, hmem]
      exact ⟨(hi1.breaks k hk1).2.2.1, hi1.marks k hk1⟩
    · intro j hj
      rw [hmem]
      apply hf j
      intro k hk1 heq
      have := hj k (by omega)
      rw [htab, getD_append_of_lt _ _ _ hk1] at this
      omega

theorem segmentation_frame_witness :
    "aaaa bbbb\ncccc dddd".toList.length = "aaaa bbbb cccc dddd".toList.length ∧
      (∀ k, k + 1 < [10, 19].length →
        "aaaa bbbb cccc dddd".toList[[10, 19].getD k 0 - 1]? = some ' ' ∧
        "aaaa bbbb\ncccc dddd".toList[[10, 19].getD k 0 - 1]? = some '\n') ∧
      (∀ j, (∀ k, k + 1 < [10, 19].length → j ≠ [10, 19].getD k 0 - 1) →
        "aaaa bbbb\ncccc dddd".toList[j]? = "aaaa bbbb cccc dddd".toList[j]?) :=
  segmentation_frame 10 "aaaa bbbb cccc dddd".toList
    ⟨"aaaa bbbb\ncccc dddd".toList, [10, 19], 2⟩ (by decide) rfl

/-- C20. On a non-empty buffer with `L >= 1`: after a successful
segmentation the final line has length between `1` and `L` and every other
line has length at least `2`; and a buffer of length at most `L` is always
segmented, into the single entry `file_size`, with no byte modified. -/
theorem final_line_and_short_buffer (L : Nat) (mem : List Char) (hL : 1 ≤ L)
    (hne : mem ≠ []) :
    (∀ r, segment L mem = .ok r →
        1 ≤ mem.length - lineStart r.offset_table (r.offset_table.length - 1) ∧
        mem.length - lineStart r.offset_table (r.offset_table.length - 1) ≤ L ∧
        ∀ k, k + 1 < r.offset_table.length →
          2 ≤ r.offset_table.getD k 0 - lineStart r.offset_table k) ∧
      (mem.length ≤ L → segment L mem = .ok ⟨mem, [mem.length], 1⟩) := by
  constructor
  · intro r h
    obtain ⟨s, hi, _, ht, _⟩ := segment_spec L mem r hL hne h
    have hpos : 0 < mem.length := List.length_pos.mpr hne
    have h1 := hi.line_le_space
    have h2 := hi.space_le
    have h3 := hi.within
    have hst : lineStart r.offset_table (r.offset_table.length - 1) = s.last_line_offset := by
      rw [ht]
      simp only [List.length_append, List.length_singleton, Nat.add_sub_cancel]
      rw [lineStart_append_of_le _ _ _ (le_refl _), hi.start_eq]
    rw [hst]
    refine ⟨by omega, by omega, ?_⟩
    intro k hk
    rw [ht] at hk ⊢
    simp only [List.length_append, List.length_singleton] at hk
    have hk1 : k < s.offset_table.length := by omega
    rw [getD_append_of_lt _ _ _ hk1, lineStart_append_of_le _ _ _ (by omega)]
    have := (hi.breaks k hk1).1
    omega
  · intro hlen
    have hpos : 0 < mem.length := List.length_pos.mpr hne
    obtain ⟨ls, hs⟩ := scan_short L mem hlen mem.length (le_refl _)
    unfold segment
    rw [hs]
    simp only [closeTable]
    rw [if_pos hpos]
    rfl

theorem final_line_and_short_buffer_witness :
    (∀ r, segment 10 "aaaa bbbb cccc dddd".toList = .ok r →
        1 ≤ "aaaa bbbb cccc dddd".toList.length
          - lineStart r.offset_table (r.offset_table.length - 1) ∧
        "aaaa bbbb cccc dddd".toList.length
          - lineStart r.offset_table (r.offset_table.length - 1) ≤ 10 ∧
        ∀ k, k + 1 < r.offset_table.length →
          2 ≤ r.offset_table.getD k 0 - lineStart r.offset_table k) ∧
      ("aaaa bbbb cccc dddd".toList.length ≤ 10 →
        segment 10 "aaaa bbbb cccc dddd".toList
          = .ok ⟨"aaaa bbbb cccc dddd".toList, ["aaaa bbbb cccc dddd".toList.length], 1⟩) :=
  final_line_and_short_buffer 10 "aaaa bbbb cccc dddd".toList (by decide) (by decide)

theorem segment_short_example :
    segment 10 "aaaa bbbb".toList = .ok ⟨"aaaa bbbb".toList, [9], 1⟩ := rfl

/-! ## Loader: lemmas and claim -/

theorem writeAt_length (memory : List Char) (pos : Nat) (chunk : List Char)
    (h : pos + chunk.length ≤ memory.length) :
    (writeAt memory pos chunk).length = memory.length := by
  unfold writeAt
  simp only [List.length_take, List.length_append, List.length_drop]
  omega

theorem writeAt_take (memory : List Char) (pos : Nat) (chunk : List Char)
    (h : pos + chunk.length ≤ memory.length) :
    (writeAt memory pos chunk).take (pos + chunk.length) = memory.take pos ++ chunk := by
  unfold writeAt
  rw [List.take_take, min_eq_left h]
  have hl : (memory.take pos ++ chunk).length = pos + chunk.length := by
    simp only [List.length_append, List.length_take]
    omega
  rw [← hl, List.take_left]

theorem realloc_length (memory : List Char) (n : Nat) : (realloc memory n).length = n := by
  unfold realloc
  simp only [List.length_take, List.length_append, List.length_replicate]
  omega

theorem realloc_take (memory : List Char) (n k : Nat) (hk : k ≤ memory.length)
    (hn : memory.length ≤ n) : (realloc memory n).take k = memory.take k := by
  unfold realloc
  rw [List.take_take, min_eq_left (by omega), List.take_append_of_le_length hk]

theorem loadInv_step (file : List Char) (n : Nat) (s : LoadState)
    (hi : LoadInv file n s) : LoadInv file (n + 1) (loadStep file s) := by
  obtain ⟨hr, hrest⟩ := hi
  unfold loadStep
  cases hf : s.fptr with
  | false =>
    rw [hf] at hrest
    simp only [Bool.false_eq_true, ↓reduceIte]
    refine ⟨hr, ?_⟩
    rw [hf]
    exact hrest
  | true =>
    rw [hf] at hrest
    simp only [↓reduceIte] at hrest ⊢
    obtain ⟨hpos, hfs, hms, hlen, htake, hle⟩ := hrest
    have h16 : DEFAULT_CHUNK_SIZE = 16 := rfl
    rw [h16] at hpos hfs hms hle
    simp only [h16]
    have hclen : ((file.drop s.pos).take DEFAULT_CHUNK_SIZE).length
        = min DEFAULT_CHUNK_SIZE (file.length - s.pos) := by
      simp only [List.length_take, List.length_drop]
    have hfit : s.file_size + ((file.drop s.pos).take DEFAULT_CHUNK_SIZE).length
        ≤ s.memory.length := by
      rw [hclen, hlen, hms, hfs]
      omega
    have hw := writeAt_take s.memory s.file_size _ hfit
    have hwl := writeAt_length s.memory s.file_size _ hfit
    rw [h16] at hclen hfit hw hwl
    have hreads : ∀ p ∈ s.reads ++ [(s.file_size, s.mem_size)],
        p.1 + DEFAULT_CHUNK_SIZE ≤ p.2 := by
      intro p hp
      rcases List.mem_append.mp hp with h | h
      · exact hr p h
      · simp only [List.mem_singleton] at h
        rw [h, h16]
        simp only
        omega
    split
    · rename_i hshort
      refine ⟨hreads, ?_⟩
      simp only [Bool.false_eq_true, ↓reduceIte]
      rw [hclen] at hshort
      have hrem : file.length - s.pos < 16 := by omega
      have hall : (file.drop s.pos).take 16 = file.drop s.pos := by
        apply List.take_of_length_le
        simp only [List.length_drop]
        omega
      rw [hall] at hw ⊢
      have hdl : (file.drop s.pos).length = file.length - s.pos := by simp
      refine ⟨by rw [hdl]; omega, ?_⟩
      rw [hw, htake, hfs, ← hpos, List.take_append_drop]
    · rename_i hfull
      refine ⟨hreads, ?_⟩
      simp only [↓reduceIte, h16]
      rw [hclen] at hfull
      have hc16 : ((file.drop s.pos).take 16).length = 16 := by
        rw [hclen]; omega
      rw [hc16] at hw ⊢
      refine ⟨by omega, by omega, by omega, ?_, ?_, by omega⟩
      · rw [realloc_length]
      · rw [realloc_take _ _ _ (by rw [hwl]; omega) (by rw [hwl]; omega), hw, htake,
          List.take_add, hfs, hpos]

theorem loadInv_init (file : List Char) : LoadInv file 0 loadInit := by
  refine ⟨by simp [loadInit], ?_⟩
  simp [loadInit, DEFAULT_CHUNK_SIZE]

theorem loadInv_loadSteps (file : List Char) :
    ∀ n, LoadInv file n (loadSteps file n) := by
  intro n
  induction n with
  | zero => exact loadInv_init file
  | succ n ih => exact loadInv_step file n _ ih

/-- C13. Loader: after `file_size / 16 + 1` passes of the load loop (or
more) the file is closed, the loaded buffer is the file content byte for
byte, `file_size` is its length, and at every `fread` the capacity
`mem_size` was at least `file_size + 16`. -/
theorem loader_loads_file (file : List Char) (n : Nat)
    (hn : file.length / DEFAULT_CHUNK_SIZE + 1 ≤ n) :
    (loadSteps file n).fptr = false ∧
      loaded (loadSteps file n) = file ∧
      (loadSteps file n).file_size = file.length ∧
      ∀ p ∈ (loadSteps file n).reads, p.1 + DEFAULT_CHUNK_SIZE ≤ p.2 := by
  obtain ⟨hr, hrest⟩ := loadInv_loadSteps file n
  have h16 : DEFAULT_CHUNK_SIZE = 16 := rfl
  rw [h16] at hn
  cases hf : (loadSteps file n).fptr with
  | true =>
    rw [hf] at hrest
    simp only [↓reduceIte, h16] at hrest
    have := hrest.2.2.2.2.2
    omega
  | false =>
    rw [hf] at hrest
    simp only [Bool.false_eq_true, ↓reduceIte] at hrest
    exact ⟨rfl, hrest.2, hrest.1, hr⟩

theorem loader_loads_file_witness :
    loaded (loadSteps "0123456789abcdef".toList 2) = "0123456789abcdef".toList ∧
      loaded (loadSteps [] 1) = [] ∧
      ((loadSteps "0123456789abcdefXYZ".toList 2).fptr = false ∧
        loaded (loadSteps "0123456789abcdefXYZ".toList 2) = "0123456789abcdefXYZ".toList ∧
        (loadSteps "0123456789abcdefXYZ".toList 2).file_size
          = "0123456789abcdefXYZ".toList.length ∧
        ∀ p ∈ (loadSteps "0123456789abcdefXYZ".toList 2).reads,
          p.1 + DEFAULT_CHUNK_SIZE ≤ p.2) :=
  ⟨by decide, by decide, loader_loads_file "0123456789abcdefXYZ".toList 2 (by decide)⟩

/-! ## Option validation: claim -/

/-- C14, the code at the failing input. The option `-m -1` (a negative
maximum message count, the other options absent) is accepted: the value is
stored as the `unsigned long` `2^64 - 1` and the limit is switched on. A
non-positive line length, a non-positive lines-per-message and a negative
delay are rejected. -/
theorem negative_msgs_to_send_accepted :
    validate ⟨none, none, none, some (-1)⟩
        = .ok ⟨100, 1, 100, 18446744073709551615, true⟩ ∧
      validate ⟨some 0, none, none, none⟩ = .error .invalid_line_length ∧
      validate ⟨none, some 0, none, none⟩ = .error .invalid_lines_to_send ∧
      validate ⟨none, none, some (-1), none⟩ = .error .invalid_sleep_time :=
  ⟨by rfl, by rfl, by rfl, by rfl⟩

/-! ## Send loop: empty table, cancellation, failed sends -/

/-- With an empty table a step submits nothing, reads nothing, counts
nothing and never sleeps, whatever the environment does. -/
theorem empty_step (c : Config) (h : c.offset_table = []) (e : Env) (s : State)
    (hnn : 0 ≤ s.lines_sent) :
    0 ≤ (step c e s).lines_sent ∧
      (step c e s).produced = s.produced ∧ (step c e s).table_reads = s.table_reads ∧
      (step c e s).total_msgs_sent = s.total_msgs_sent ∧
      (step c e s).total_bytes_sent = s.total_bytes_sent ∧
      (step c e s).sleeps = s.sleeps := by
  have hN : ¬ s.lines_sent < c.offset_table_size := by
    unfold Config.offset_table_size
    rw [h]
    simpa using hnn
  unfold step
  split
  · unfold outerHead
    split
    · exact ⟨le_refl _, rfl, rfl, rfl, rfl, rfl⟩
    · exact ⟨hnn, rfl, rfl, rfl, rfl, rfl⟩
  · unfold iteration
    rw [if_neg hN]
    exact ⟨hnn, rfl, rfl, rfl, rfl, rfl⟩
  · exact ⟨hnn, rfl, rfl, rfl, rfl, rfl⟩

theorem empty_runSteps (c : Config) (h : c.offset_table = []) (envs : List Env) :
    ∀ s : State, 0 ≤ s.lines_sent →
      (runSteps c envs s).produced = s.produced ∧
        (runSteps c envs s).table_reads = s.table_reads ∧
        (runSteps c envs s).total_msgs_sent = s.total_msgs_sent ∧
        (runSteps c envs s).total_bytes_sent = s.total_bytes_sent ∧
        (runSteps c envs s).sleeps = s.sleeps := by
  induction envs with
  | nil => intro s _; exact ⟨rfl, rfl, rfl, rfl, rfl⟩
  | cons e envs ih =>
    intro s hs
    rw [runSteps_cons]
    obtain ⟨a0, a1, a2, a3, a4, a5⟩ := empty_step c h e s hs
    obtain ⟨b1, b2, b3, b4, b5⟩ := ih _ a0
    exact ⟨b1.trans a1, b2.trans a2, b3.trans a3, b4.trans a4, b5.trans a5⟩

/-- With an empty table and `run` set, two steps (the head of the `while`,
then the `for` that finds no batch) lead from the initial state back to it. -/
theorem empty_cycle (c : Config) (h : c.offset_table = []) (e1 e2 : Env)
    (h1 : e1.run = true) : step c e2 (step c e1 sendInit) = sendInit := by
  have hs1 : step c e1 sendInit = { sendInit with loc := .inner_head } := by
    simp [step, sendInit, outerHead, h1]
  rw [hs1]
  have hN : ¬ ({ sendInit with loc := Loc.inner_head } : State).lines_sent
      < c.offset_table_size := by
    unfold Config.offset_table_size
    rw [h]
    simp [sendInit]
  simp only [step, iteration]
  rw [if_neg hN]
  rfl

theorem empty_cycles (c : Config) (h : c.offset_table = []) :
    ∀ k : Nat, runSteps c (List.replicate (2 * k) okEnv) sendInit = sendInit := by
  intro k
  induction k with
  | zero => rfl
  | succ k ih =>
    have hrep : List.replicate (2 * (k + 1)) okEnv
        = okEnv :: okEnv :: List.replicate (2 * k) okEnv := by
      rw [show 2 * (k + 1) = 2 * k + 1 + 1 by ring, List.replicate_succ, List.replicate_succ]
    rw [hrep, runSteps_cons, runSteps_cons, empty_cycle c h okEnv okEnv rfl]
    exact ih

/-- C11, the code at the failing input. With a 0-byte input and a limit of
0, while `run` stays set the loop never ends: after any even number of steps
it is back in its initial state, at the head of the `while`, and one step
later it is inside the `for`; it submits nothing. -/
theorem limit_zero_empty_never_ends :
    ∀ k : Nat,
      runSteps emptyLimit0 (List.replicate (2 * k) okEnv) sendInit = sendInit ∧
        (runSteps emptyLimit0 (List.replicate (2 * k + 1) okEnv) sendInit).loc
          = .inner_head ∧
        (runSteps emptyLimit0 (List.replicate (2 * k + 1) okEnv) sendInit).produced = [] := by
  intro k
  have h0 := empty_cycles emptyLimit0 rfl k
  have h1 : runSteps emptyLimit0 (List.replicate (2 * k + 1) okEnv) sendInit
      = step emptyLimit0 okEnv sendInit := by
    rw [List.replicate_succ', runSteps_snoc, h0]
  refine ⟨h0, ?_, ?_⟩
  · rw [h1]; rfl
  · rw [h1]; rfl

/-- C12. Cancellation: when a pass of the `for` finds `run` cleared, it
leaves the `for` with every variable and the record of submissions unchanged;
and when the head of the `while` then finds `run` cleared too (the program
only ever clears the flag, in `stop`), the loop is over, in that same state,
whatever follows. -/
theorem cancellation_stops (c : Config) (s : State) (e : Env)
    (hloc : s.loc = .inner_head) (hrun : e.run = false) :
    step c e s = { s with loc := .outer_head } ∧
      ∀ (x : Env) (more : List Env), x.run = false →
        runSteps c (e :: x :: more) s = { s with loc := .finished } := by
  have hstep : step c e s = { s with loc := .outer_head } := by
    simp only [step, hloc, iteration, hrun]
    split <;> rfl
  refine ⟨hstep, ?_⟩
  intro x more hx
  rw [runSteps_cons, runSteps_cons, hstep]
  have h2 : step c x { s with loc := .outer_head } = { s with loc := .finished } := by
    simp [step, outerHead, hx]
  rw [h2]
  exact runSteps_finished c more _ rfl

theorem cancellation_stops_witness :
    (runSteps scenarioD [okEnv, okEnv, cancelEnv, cancelEnv, okEnv, okEnv] sendInit).produced
        = [(0, 7)] ∧
      (step scenarioD cancelEnv (runSteps scenarioD [okEnv, okEnv] sendInit)
          = { runSteps scenarioD [okEnv, okEnv] sendInit with loc := .outer_head } ∧
        ∀ (x : Env) (more : List Env), x.run = false →
          runSteps scenarioD (cancelEnv :: x :: more) (runSteps scenarioD [okEnv, okEnv] sendInit)
            = { runSteps scenarioD [okEnv, okEnv] sendInit with loc := .finished }) :=
  ⟨by decide, cancellation_stops scenarioD (runSteps scenarioD [okEnv, okEnv] sendInit)
    cancelEnv (by decide) (by decide)⟩

/-- C16. Segmenting an empty buffer succeeds with an empty table and
`offset_table_size = 0`; the send loop over that table, whatever the options
and whatever the environment does, never reads the table, never calls
`rd_kafka_produce` and counts no message. -/
theorem empty_buffer_no_batches (L : Nat) (W sleep : Int) (lim : Bool) (m : Nat)
    (envs : List Env) :
    segment L [] = .ok ⟨[], [], 0⟩ ∧
      (configOf ⟨[], [], 0⟩ W sleep lim m).offset_table_size = 0 ∧
      (runSteps (configOf ⟨[], [], 0⟩ W sleep lim m) envs sendInit).produced = [] ∧
      (runSteps (configOf ⟨[], [], 0⟩ W sleep lim m) envs sendInit).table_reads = [] ∧
      (runSteps (configOf ⟨[], [], 0⟩ W sleep lim m) envs sendInit).total_msgs_sent = 0 := by
  obtain ⟨a, b, d, _, _⟩ :=
    empty_runSteps (configOf ⟨[], [], 0⟩ W sleep lim m) rfl envs sendInit (le_refl _)
  exact ⟨rfl, rfl, a, b, d⟩

/-- C17, the code at the failing input. With a 0-byte input, a delay of 100
microseconds and no limit, while `run` stays set each cycle of the `while`
ends in the state it started from, so cycle follows cycle, and no step ever
calls `usleep`. -/
theorem empty_table_spins_without_sleep :
    ∀ k : Nat,
      runSteps emptyPaced (List.replicate (2 * k) okEnv) sendInit = sendInit ∧
        ∀ n : Nat, (runSteps emptyPaced (List.replicate n okEnv) sendInit).sleeps = 0 := by
  intro k
  refine ⟨empty_cycles emptyPaced rfl k, ?_⟩
  intro n
  exact (empty_runSteps emptyPaced rfl _ sendInit (le_refl _)).2.2.2.2

/-- C18, the code at the failing input. In scenario D, when the send of the
batch at line 2 fails, the batch at line 4 is submitted as the range that
starts at offset 7 with 13 bytes (lines 2 to 4), whereas after a successful
send of the batch at line 2 it is the range that starts at offset 14 with 6
bytes (line 4 alone). -/
theorem failed_send_widens_next_batch :
    (runSteps scenarioD [okEnv, okEnv, failEnv, okEnv] sendInit).produced
        = [(0, 7), (7, 7), (7, 13)] ∧
      (runSteps scenarioD [okEnv, okEnv, okEnv, okEnv] sendInit).produced
        = [(0, 7), (7, 7), (14, 6)] ∧
      batchStart scenarioD.offset_table 4 = 14 ∧
      batchEnd scenarioD.offset_table scenarioD.lines_to_send 4 = 20 :=
  ⟨by decide, by decide, by decide, by decide⟩

/-! ## Send loop: a whole traversal -/

theorem iteration_keeps (c : Config) (e : Env) (s : State)
    (hlt : s.lines_sent < c.offset_table_size) (hrun : e.run = true)
    (hok : e.produce_ok = true) (hl : (iteration c e s).loc = .inner_head) :
    (iteration c e s).send_more_msgs = s.send_more_msgs ∧
      (iteration c e s).lines_sent = s.lines_sent + c.lines_to_send := by
  by_cases hlim : (c.is_msgs_limited &&
      (s.total_msgs_sent + 1) % 2 ^ 64 == c.msgs_to_send) = true
  · exfalso
    unfold iteration at hl
    rw [if_pos hlt, if_neg (by simp [hrun]), if_neg (by simp [hok])] at hl
    simp only [hlim, if_true] at hl
    cases hl
  · unfold iteration
    rw [if_pos hlt, if_neg (by simp [hrun]), if_neg (by simp [hok])]
    simp only [hlim, if_false, and_self]
    trivial

/-- After `k` passes of the `for` from the start of a traversal, all with
`run` set and a successful send, each begun inside the table, and with the
traversal still running: `lines_sent = k * W`, the stop flag is untouched and
the `k` payloads submitted are those of batches `0 .. k - 1`. -/
theorem traversal_run (c : Config) (st0 : State) (hW : 1 ≤ c.lines_to_send)
    (hloc : st0.loc = .inner_head) (hls : st0.lines_sent = 0) (hlo : st0.line_offset = 0) :
    ∀ envs : List Env, (∀ e ∈ envs, e.run = true ∧ e.produce_ok = true) →
      (envs.length : Int) * c.lines_to_send < c.offset_table_size + c.lines_to_send →
      (runSteps c envs st0).loc = .inner_head →
      (runSteps c envs st0).lines_sent = (envs.length : Int) * c.lines_to_send ∧
        (runSteps c envs st0).send_more_msgs = st0.send_more_msgs ∧
        (runSteps c envs st0).produced
          = st0.produced ++ (List.range envs.length).map (batchPayload c) := by
  intro envs
  induction envs using List.reverseRecOn with
  | nil =>
    intro _ _ _
    simp [runSteps_nil, hls]
  | append_singleton envs e ih =>
    intro hall hlen hfin
    have hcast : (((envs ++ [e]).length : Nat) : Int) = (envs.length : Int) + 1 := by
      simp
    rw [hcast] at hlen ⊢
    have hmul : ((envs.length : Int) + 1) * c.lines_to_send
        = (envs.length : Int) * c.lines_to_send + c.lines_to_send := by ring
    rw [hmul] at hlen
    have hlt0 : (envs.length : Int) * c.lines_to_send < c.offset_table_size := by omega
    have hnn : 0 ≤ (envs.length : Int) * c.lines_to_send :=
      Int.mul_nonneg (Int.natCast_nonneg _) (by omega)
    have hall0 : ∀ x ∈ envs, x.run = true ∧ x.produce_ok = true :=
      fun x hx => hall x (by simp [hx])
    have he := hall e (by simp)
    rw [runSteps_snoc] at hfin ⊢
    rcases traversal_prefix c st0 hW hloc hls hlo envs hall0 hlt0 with
      ⟨h1, h2, h3⟩ | ⟨h1, h2⟩ | h1
    · obtain ⟨_, i2, i3⟩ := ih hall0 (by omega) h1
      have hstep : step c e (runSteps c envs st0) = iteration c e (runSteps c envs st0) := by
        simp [step, h1]
      rw [hstep] at hfin ⊢
      have hlt : (runSteps c envs st0).lines_sent < c.offset_table_size := by
        rw [h2]; exact hlt0
      obtain ⟨k1, k2⟩ := iteration_keeps c e _ hlt he.1 he.2 hfin
      refine ⟨by rw [k2, h2, hmul], by rw [k1, i2], ?_⟩
      rw [iteration_produced c e _ hlt he.1, i3, h2, h3]
      have hidx := batchIndex_eq_min c ((envs.length : Int) * c.lines_to_send)
      have hN : ((c.offset_table.length : Nat) : Int) = c.offset_table_size := rfl
      have hin : 0 ≤ batchIndex c ((envs.length : Int) * c.lines_to_send) - 1 ∧
          batchIndex c ((envs.length : Int) * c.lines_to_send) - 1
            < (c.offset_table.length : Int) := by
        unfold batchIndex
        rw [hN]
        split <;> constructor <;> omega
      rw [readTable_inside _ _ _ hin.1 hin.2, hidx, List.length_append, List.length_singleton,
        List.range_succ, List.map_append, List.append_assoc]
      rfl
    · exfalso
      have : step c e (runSteps c envs st0) = { runSteps c envs st0 with loc := .finished } := by
        simp [step, h1, outerHead, h2]
      rw [this] at hfin
      cases hfin
    · exfalso
      rw [step_finished c e _ h1, h1] at hfin
      cases hfin

/-! ## From the segmented buffer to the payloads of a traversal -/

/-- The table of a successful segmentation of a non-empty buffer: each entry
is greater than the start of its line, the last entry is the buffer length,
`offset_table_size` counts the entries, there is at least one, and the buffer
has kept its length. -/
theorem segment_table (L : Nat) (mem : List Char) (r : Segmented) (hL : 1 ≤ L)
    (hne : mem ≠ []) (h : segment L mem = .ok r) :
    (∀ k, k < r.offset_table.length → lineStart r.offset_table k < r.offset_table.getD k 0) ∧
      lineStart r.offset_table r.offset_table.length = mem.length ∧
      r.offset_table_size = r.offset_table.length ∧
      0 < r.offset_table.length ∧
      r.memory.length = mem.length := by
  obtain ⟨s, hi, hm, ht, hsz⟩ := segment_spec L mem r hL hne h
  have hpos : 0 < mem.length := List.length_pos.mpr hne
  have h1 := hi.line_le_space
  have h2 := hi.space_le
  refine ⟨?_, ?_, ?_, ?_, ?_⟩
  · intro k hk
    rw [ht] at hk ⊢
    simp only [List.length_append, List.length_singleton] at hk
    rcases Nat.lt_or_ge k s.offset_table.length with hk1 | hk1
    · rw [getD_append_of_lt _ _ _ hk1, lineStart_append_of_le _ _ _ (by omega)]
      have := (hi.breaks k hk1).1
      omega
    · have hk2 : k = s.offset_table.length := by omega
      rw [hk2, getD_append_last, lineStart_append_of_le _ _ _ (le_refl _), hi.start_eq]
      omega
  · rw [ht, List.length_append, List.length_singleton, lineStart_append_last]
  · rw [ht, hsz]; simp
  · rw [ht]; simp
  · rw [hm, hi.mem_len]

theorem lineStart_succ (t : List Nat) (k : Nat) : lineStart t (k + 1) = t.getD k 0 := by
  simp [lineStart]

theorem lineStart_lt (t : List Nat)
    (hinc : ∀ k, k < t.length → lineStart t k < t.getD k 0) :
    ∀ j i, i < j → j ≤ t.length → lineStart t i < lineStart t j := by
  intro j
  induction j with
  | zero => intro i hi _; omega
  | succ j ih =>
    intro i hi hj
    have hstep : lineStart t j < lineStart t (j + 1) := by
      rw [lineStart_succ]; exact hinc j (by omega)
    rcases Nat.lt_or_ge i j with h | h
    · exact lt_trans (ih i h (by omega)) hstep
    · have : i = j := by omega
      rw [this]; exact hstep

theorem cut_zero (t : List Nat) (W : Nat) : cut t W 0 = 0 := by
  simp [cut, lineStart]

theorem cut_lt_succ (t : List Nat) (W k : Nat) (hW : 1 ≤ W)
    (hinc : ∀ k, k < t.length → lineStart t k < t.getD k 0) (hk : k * W < t.length) :
    cut t W k < cut t W (k + 1) := by
  unfold cut
  apply lineStart_lt t hinc
  · rw [min_eq_left (by omega)]
    have : k * W < (k + 1) * W := by
      rw [Nat.add_mul]; omega
    exact lt_min this hk
  · exact min_le_right _ _

theorem cut_last (t : List Nat) (W K : Nat) (hK : t.length ≤ K * W) :
    cut t W K = lineStart t t.length := by
  unfold cut
  rw [min_eq_right hK]

theorem getD_map_ofNat (t : List Nat) (i : Nat) :
    (t.map Int.ofNat).getD i 0 = ((t.getD i 0 : Nat) : Int) :=
  List.getD_map t 0 Int.ofNat

theorem configOf_table (r : Segmented) (W sleep : Int) (lim : Bool) (m : Nat)
    (hsz : r.offset_table_size = r.offset_table.length) :
    (configOf r W sleep lim m).offset_table = r.offset_table.map Int.ofNat ∧
      (configOf r W sleep lim m).offset_table_size = (r.offset_table.length : Int) ∧
      (configOf r W sleep lim m).lines_to_send = W := by
  have ht : (configOf r W sleep lim m).offset_table = r.offset_table.map Int.ofNat := by
    simp [configOf, hsz]
  refine ⟨ht, ?_, rfl⟩
  unfold Config.offset_table_size
  rw [ht]
  simp

/-- The payload of batch `k` runs from one cut of the table to the next. -/
theorem batchPayload_cut (t : List Nat) (c : Config) (W k : Nat) (hW : 1 ≤ W)
    (ht : c.offset_table = t.map Int.ofNat) (hw : c.lines_to_send = (W : Int))
    (hk : k * W < t.length) :
    batchPayload c k = ((cut t W k : Int), (cut t W (k + 1) : Int) - (cut t W k : Int)) := by
  have hs : (k : Int) * (W : Int) = ((k * W : Nat) : Int) := by push_cast; rfl
  have hstart : batchStart c.offset_table ((k : Int) * c.lines_to_send)
      = (cut t W k : Int) := by
    rw [hw, hs, ht]
    unfold batchStart cut lineStart
    rw [min_eq_left (by omega)]
    by_cases h0 : k * W = 0
    · rw [if_pos (by rw [h0]; rfl), if_pos h0]; rfl
    · rw [if_neg (by omega), if_neg h0, getD_map_ofNat]
      congr 2
      omega
  have hend : batchEnd c.offset_table c.lines_to_send ((k : Int) * c.lines_to_send)
      = (cut t W (k + 1) : Int) := by
    rw [hw, hs, ht]
    unfold batchEnd cut lineStart
    have hm : min (((k * W : Nat) : Int) + (W : Int)) (((t.map Int.ofNat).length : Nat) : Int)
        = ((min ((k + 1) * W) t.length : Nat) : Int) := by
      rw [List.length_map, Nat.add_mul, Nat.one_mul]
      push_cast
      rfl
    have hpos : min ((k + 1) * W) t.length ≠ 0 := by
      have : 0 < (k + 1) * W := by
        rw [Nat.add_mul]; omega
      have := lt_min this (by omega : 0 < t.length)
      omega
    rw [hm, if_neg hpos, getD_map_ofNat]
    congr 2
    omega
  unfold batchPayload
  rw [hstart, hend]

theorem flatten_slices (mem : List Char) (b : Nat → Nat) (h0 : b 0 = 0) :
    ∀ K, (∀ k, k < K → b k ≤ b (k + 1)) →
      ((List.range K).map (fun k => (mem.drop (b k)).take (b (k + 1) - b k))).flatten
        = mem.take (b K) := by
  intro K
  induction K with
  | zero => intro _; simp [h0]
  | succ K ih =>
    intro hmono
    have hle := hmono K (by omega)
    rw [List.range_succ, List.map_append, List.flatten_append,
      ih (fun k hk => hmono k (by omega))]
    simp only [List.map_cons, List.map_nil, List.flatten_cons, List.flatten_nil,
      List.append_nil]
    rw [← List.take_add]
    congr 1
    omega

theorem payloadBytes_cut (memory : List Char) (a b : Nat) :
    payloadBytes memory ((a : Int), (b : Int) - (a : Int)) = (memory.drop a).take (b - a) := by
  unfold payloadBytes
  simp only [Int.toNat_ofNat]
  congr 1
  omega

theorem ceil_bounds (N W K : Nat) (hW : 1 ≤ W) (hK : K = (N + W - 1) / W) :
    N ≤ K * W ∧ K * W < N + W := by
  have h1 : (N + W - 1) / W * W ≤ N + W - 1 := Nat.div_mul_le_self _ _
  have h2 : N + W - 1 < W * ((N + W - 1) / W + 1) := Nat.lt_mul_div_succ _ (by omega)
  rw [← hK] at h1 h2
  rw [Nat.mul_add, Nat.mul_one, Nat.mul_comm] at h2
  constructor <;> omega

theorem mul_lt_of_lt_ceil (N W K k : Nat) (hk : k < K) (hKW : K * W < N + W) :
    k * W < N := by
  have h := Nat.mul_le_mul_right W (show k + 1 ≤ K by omega)
  rw [Nat.add_mul, Nat.one_mul] at h
  omega

/-- C19. Coverage of one traversal: after a successful segmentation of a
non-empty buffer, with `W >= 1` lines per message, a traversal whose
`ceil(N / W)` passes all find `run` set and send successfully, and that the
limit has not ended, has submitted exactly the payloads of batches
`0 .. ceil(N / W) - 1`; each is non-empty, the first starts at offset `0`, each
next one starts where the previous ended, the last ends at `file_size`, and
their bytes put together are the whole segmented buffer; the next pass finds
no batch left and leaves the `for`, and the following traversal starts at
line `0`, offset `0`. -/
theorem traversal_covers_buffer (L : Nat) (mem : List Char) (r : Segmented) (W : Nat)
    (sleep : Int) (lim : Bool) (m : Nat) (st0 : State) (envs : List Env)
    (hL : 1 ≤ L) (hne : mem ≠ []) (hseg : segment L mem = .ok r) (hW : 1 ≤ W)
    (hloc : st0.loc = .inner_head) (hls : st0.lines_sent = 0) (hlo : st0.line_offset = 0)
    (hsm : st0.send_more_msgs = true)
    (hall : ∀ e ∈ envs, e.run = true ∧ e.produce_ok = true)
    (hK : envs.length = (r.offset_table_size + W - 1) / W)
    (hfin : (runSteps (configOf r W sleep lim m) envs st0).loc = .inner_head) :
    (runSteps (configOf r W sleep lim m) envs st0).produced
        = st0.produced ++ (List.range envs.length).map (batchPayload (configOf r W sleep lim m)) ∧
      (∀ k, k < envs.length → 0 < (batchPayload (configOf r W sleep lim m) k).2) ∧
      (batchPayload (configOf r W sleep lim m) 0).1 = 0 ∧
      (∀ k, k + 1 < envs.length →
        (batchPayload (configOf r W sleep lim m) (k + 1)).1
          = (batchPayload (configOf r W sleep lim m) k).1
            + (batchPayload (configOf r W sleep lim m) k).2) ∧
      (batchPayload (configOf r W sleep lim m) (envs.length - 1)).1
          + (batchPayload (configOf r W sleep lim m) (envs.length - 1)).2 = (mem.length : Int) ∧
      ((List.range envs.length).map
          (fun k => payloadBytes r.memory (batchPayload (configOf r W sleep lim m) k))).flatten
        = r.memory ∧
      (∀ e : Env, step (configOf r W sleep lim m) e (runSteps (configOf r W sleep lim m) envs st0)
        = { runSteps (configOf r W sleep lim m) envs st0 with loc := .outer_head }) ∧
      (∀ e1 e2 : Env, e2.run = true →
        step (configOf r W sleep lim m) e2
            (step (configOf r W sleep lim m) e1 (runSteps (configOf r W sleep lim m) envs st0))
          = { runSteps (configOf r W sleep lim m) envs st0 with
              loc := .inner_head, line_offset := 0, lines_sent := 0 }) := by
  obtain ⟨hinc, hlast, hsz, hposN, hmemlen⟩ := segment_table L mem r hL hne hseg
  obtain ⟨ct, cN, cW⟩ := configOf_table r (W : Int) sleep lim m hsz
  rw [hsz] at hK
  obtain ⟨hb1, hb2⟩ := ceil_bounds r.offset_table.length W envs.length hW hK
  have hklt : ∀ k, k < envs.length → k * W < r.offset_table.length :=
    fun k hk => mul_lt_of_lt_ceil _ W envs.length k hk hb2
  have hKpos : 0 < envs.length := by
    rcases Nat.eq_zero_or_pos envs.length with h | h
    · rw [h] at hb1; omega
    · exact h
  have hpay : ∀ k, k < envs.length →
      batchPayload (configOf r W sleep lim m) k
        = ((cut r.offset_table W k : Int),
            (cut r.offset_table W (k + 1) : Int) - (cut r.offset_table W k : Int)) :=
    fun k hk => batchPayload_cut r.offset_table _ W k hW ct cW (hklt k hk)
  have hcutlt : ∀ k, k < envs.length →
      cut r.offset_table W k < cut r.offset_table W (k + 1) :=
    fun k hk => cut_lt_succ r.offset_table W k hW hinc (hklt k hk)
  have hWi : (1 : Int) ≤ (configOf r W sleep lim m).lines_to_send := by
    rw [cW]; exact_mod_cast hW
  have hbound : (envs.length : Int) * (configOf r W sleep lim m).lines_to_send
      < (configOf r W sleep lim m).offset_table_size
        + (configOf r W sleep lim m).lines_to_send := by
    rw [cW, cN]; exact_mod_cast hb2
  obtain ⟨t1, t2, t3⟩ :=
    traversal_run (configOf r W sleep lim m) st0 hWi hloc hls hlo envs hall hbound hfin
  have hover : ¬ (runSteps (configOf r W sleep lim m) envs st0).lines_sent
      < (configOf r W sleep lim m).offset_table_size := by
    rw [t1, cW, cN]
    have : (r.offset_table.length : Int) ≤ (envs.length : Int) * (W : Int) := by
      exact_mod_cast hb1
    omega
  have hend : ∀ e : Env,
      step (configOf r W sleep lim m) e (runSteps (configOf r W sleep lim m) envs st0)
        = { runSteps (configOf r W sleep lim m) envs st0 with loc := .outer_head } := by
    intro e
    simp only [step, hfin, iteration]
    rw [if_neg hover]
  refine ⟨t3, ?_, ?_, ?_, ?_, ?_, hend, ?_⟩
  · intro k hk
    rw [hpay k hk]
    have := hcutlt k hk
    simp only
    omega
  · rw [hpay 0 hKpos, cut_zero]
    rfl
  · intro k hk
    rw [hpay k (by omega), hpay (k + 1) hk]
    simp only
    omega
  · rw [hpay (envs.length - 1) (by omega)]
    simp only
    rw [show envs.length - 1 + 1 = envs.length by omega, cut_last _ _ _ hb1, hlast]
    omega
  · have hcongr : (List.range envs.length).map
          (fun k => payloadBytes r.memory (batchPayload (configOf r W sleep lim m) k))
        = (List.range envs.length).map
          (fun k => (r.memory.drop (cut r.offset_table W k)).take
            (cut r.offset_table W (k + 1) - cut r.offset_table W k)) := by
      apply List.map_congr_left
      intro k hk
      rw [hpay k (List.mem_range.mp hk), payloadBytes_cut]
    rw [hcongr, flatten_slices r.memory (cut r.offset_table W) (cut_zero _ _) envs.length
      (fun k hk => le_of_lt (hcutlt k hk)), cut_last _ _ _ hb1, hlast]
    exact List.take_of_length_le (by omega)
  · intro e1 e2 h2
    rw [hend e1]
    simp [step, outerHead, h2, t2, hsm]

theorem traversal_covers_buffer_witness :
    (runSteps scenarioASend [okEnv, okEnv, okEnv] sendInit).produced = [(0, 10), (10, 9)] ∧
      (runSteps scenarioASend [okEnv, okEnv] (step scenarioASend okEnv sendInit)).produced
        = (step scenarioASend okEnv sendInit).produced
          ++ (List.range [okEnv, okEnv].length).map (batchPayload scenarioASend) ∧
      ((List.range [okEnv, okEnv].length).map
          (fun k => payloadBytes scenarioA.memory (batchPayload scenarioASend k))).flatten
        = scenarioA.memory :=
  have h := traversal_covers_buffer 10 "aaaa bbbb cccc dddd".toList scenarioA 1 100 false 0
    (step scenarioASend okEnv sendInit) [okEnv, okEnv]
    (by decide) (by decide) rfl (by decide) (by decide) (by decide) (by decide) (by decide)
    (by decide) (by decide) (by decide)
  ⟨by decide, h.1, h.2.2.2.2.2.1⟩

end CacheSender
